import Mathlib

/-!
# Verification of the i18n translation-key synchronization engine

Shallow embedding of the engine found in `i18n/utils.ts`, `i18n/extract.ts`,
`i18n/clean.ts`, `i18n/status.ts`, `i18n/translate.ts` and `i18n/config.ts`.

Conventions of the embedding:
* JS values of type `TranslationValue` become the inductive `TValue`; JS objects
  are insertion-ordered association lists (JS preserves insertion order for
  non-numeric string keys; the JS quirk of re-ordering integer-like keys is not
  exercised by any statement below).
* `undefined` becomes `Option.none`; fallible lookups return `Option`.
* Strings are Lean `String`s; the regex scans of `generateSkeleton` are
  re-implemented as explicit, executable character scanners that follow the JS
  regex semantics (leftmost match, greedy, non-overlapping, resume after match).
-/

namespace I18n

/-- `TranslationValue` from `i18n/utils.ts`:
`string | number | boolean | TranslationValue[] | { [key: string]: TranslationValue }`.
Numeric literals in the scanned sources are modelled as integers. -/
inductive TValue where
  | str  : String → TValue
  | num  : Int → TValue
  | bool : Bool → TValue
  | arr  : List TValue → TValue
  | obj  : List (String × TValue) → TValue

/-- JS `typeof` restricted to `TranslationValue`s: arrays and objects are both
`"object"`; there is no `null` among extracted values. -/
def jsTypeof : TValue → String
  | .str _ => "string"
  | .num _ => "number"
  | .bool _ => "boolean"
  | .arr _ => "object"
  | .obj _ => "object"

/-! ## The two regex scans of `generateSkeleton` (utils.ts 62-73)

`value.match(/\x7b\x7b[^}]+\x7d\x7d/g)` and `value.match(/<\/?[^>]+(>|$)/g)`.

A match of the interpolation regex starts at a pair of opening braces, takes a
non-empty greedy run of non-`\x7d` characters and needs a pair of closing braces
after it; on a failed attempt the engine resumes one character later, and after
a match it resumes at the match end.  The tag regex starts at a `<`, takes a
non-empty greedy run of non-`>` characters (which subsumes the optional slash)
and ends either at a `>` or at the end of the string. -/

/-- All matches of `\x7b\x7b[^}]+\x7d\x7d` (global), in order of appearance.
A match attempt at a brace pair takes the greedy non-empty run of non-`\x7d`
characters and succeeds when a closing brace pair follows; a failed attempt
resumes one character later, a successful one resumes at the match end. -/
def scanInterps : List Char → List String
  | '\x7b' :: '\x7b' :: rest =>
    if (rest.takeWhile (· ≠ '\x7d')).isEmpty then scanInterps ('\x7b' :: rest)
    else if (rest.dropWhile (· ≠ '\x7d')).take 2 = ['\x7d', '\x7d'] then
      String.mk ('\x7b' :: '\x7b' :: (rest.takeWhile (· ≠ '\x7d') ++ ['\x7d', '\x7d'])) ::
        scanInterps ((rest.dropWhile (· ≠ '\x7d')).drop 2)
    else scanInterps ('\x7b' :: rest)
  | _ :: rest => scanInterps rest
  | [] => []
termination_by l => l.length
decreasing_by
  · simp
  · have hle := (List.dropWhile_suffix (l := rest) (fun c => decide (c ≠ '\x7d'))).length_le
    simp at hle ⊢
    omega
  · simp
  · simp

/-- All matches of `<\/?[^>]+(>|$)` (global), in order of appearance.  A match
attempt at a `<` takes the greedy non-empty run of non-`>` characters (which
subsumes the optional slash) and ends at the following `>`, or at the end of
the string (the `$` alternative, after which the scan is over). -/
def scanTags : List Char → List String
  | '<' :: rest =>
    if (rest.takeWhile (· ≠ '>')).isEmpty then scanTags rest
    else if (rest.dropWhile (· ≠ '>')).isEmpty then [String.mk ('<' :: rest.takeWhile (· ≠ '>'))]
    else
      String.mk ('<' :: (rest.takeWhile (· ≠ '>') ++ ['>'])) ::
        scanTags ((rest.dropWhile (· ≠ '>')).drop 1)
  | _ :: rest => scanTags rest
  | [] => []
termination_by l => l.length
decreasing_by
  · simp
  · have hle := (List.dropWhile_suffix (l := rest) (fun c => decide (c ≠ '>'))).length_le
    simp at hle ⊢
    omega
  · simp

mutual

/-- `generateSkeleton` (utils.ts 49-77): containers keep their shape, a string
leaf is replaced by its interpolation matches followed by its tag matches,
joined with single spaces; number and boolean leaves become `""`. -/
def generateSkeleton : TValue → TValue
  | .arr l => .arr (generateSkeletonList l)
  | .obj l => .obj (generateSkeletonEntries l)
  | .str s => .str (String.intercalate " " (scanInterps s.data ++ scanTags s.data))
  | .num _ => .str ""
  | .bool _ => .str ""

/-- `value.map((item) => generateSkeleton(item))` on an array. -/
def generateSkeletonList : List TValue → List TValue
  | [] => []
  | v :: rest => generateSkeleton v :: generateSkeletonList rest

/-- The `Object.entries` loop of `generateSkeleton` on an object. -/
def generateSkeletonEntries : List (String × TValue) → List (String × TValue)
  | [] => []
  | (k, v) :: rest => (k, generateSkeleton v) :: generateSkeletonEntries rest

end

/-! ## JS objects as association lists -/

/-- JS property read `obj[key]`: first matching entry, `undefined` if absent. -/
def objLookup (l : List (String × TValue)) (k : String) : Option TValue :=
  match l with
  | [] => none
  | (k', v) :: rest => if k' = k then some v else objLookup rest k

/-- Entry rewrite used by `objSet`: replace the entry at key `k`. -/
def objUpd (k : String) (v : TValue) (p : String × TValue) : String × TValue :=
  if p.1 = k then (k, v) else p

/-- JS assignment `obj[key] = v`: updates the entry in place when the key
exists, appends a new entry otherwise. -/
def objSet (l : List (String × TValue)) (k : String) (v : TValue) :
    List (String × TValue) :=
  if l.any (fun p => p.1 == k) then l.map (objUpd k v)
  else l ++ [(k, v)]

/-- `Object.entries` view of a JS array: decimal-index-keyed entries.  Used by
the `typeof === "object"` branch of `mergeDeep` when one side is an array. -/
def arrEntries (l : List TValue) : List (String × TValue) :=
  l.enum.map (fun p => (toString p.1, p.2))

/-- Property read on any `TValue` (objects only; `undefined` elsewhere). -/
def objLookupT (v : TValue) (k : String) : Option TValue :=
  match v with
  | .obj l => objLookup l k
  | _ => none

/-- The keys of a `TValue`, in insertion order (objects only). -/
def objKeysT : TValue → List String
  | .obj l => l.map Prod.fst
  | _ => []

/-! ## `mergeDeep` (utils.ts 89-125)

The configuration flag `CONFIG.behavior.syncTranslationsStrictly` is lifted to
an explicit `strict` parameter; the repository configures it to `true`
(config.ts `behavior.syncTranslationsStrictly: true`). -/

/-- The configured value of `behavior.syncTranslationsStrictly`. -/
def syncTranslationsStrictly : Bool := true

mutual

/-- `mergeDeep(target, source)`: `none` models JS `undefined`/`null` targets
(return the source); a `typeof` mismatch returns the source; two arrays merge
elementwise, driven by the source's length; two `typeof === "object"` values
merge entry-by-entry over the source's keys, the result starting empty under
strict mode and as a copy of the target under soft mode; remaining primitives
keep the target. -/
def mergeDeep (strict : Bool) : Option TValue → TValue → TValue
  | none, source => source
  | some target, source =>
    if jsTypeof target ≠ jsTypeof source then source
    else
      match target, source with
      | .arr ta, .arr sa => .arr (mergeDeepList strict ta sa)
      | .obj tl, .obj sl =>
        .obj (mergeDeepEntries strict tl (if strict then [] else tl) sl)
      | .arr ta, .obj sl =>
        .obj (mergeDeepEntries strict (arrEntries ta)
          (if strict then [] else arrEntries ta) sl)
      | .obj tl, .arr sa =>
        .obj (mergeDeepArr strict tl (if strict then [] else tl) 0 sa)
      | target, _ => target
termination_by t s => sizeOf s

/-- `source.map((sourceItem, index) => mergeDeep(target[index], sourceItem))`:
the result has the source's length; target elements beyond it are dropped,
missing target elements are `undefined`. -/
def mergeDeepList (strict : Bool) : List TValue → List TValue → List TValue
  | _, [] => []
  | ta, s :: sa => mergeDeep strict ta.head? s :: mergeDeepList strict ta.tail sa
termination_by ta sa => sizeOf sa

/-- The `for (const key of Object.keys(source))` loop of the object branch:
`acc[key] = mergeDeep(target[key], source[key])`, reading from the original
target object `tl`. -/
def mergeDeepEntries (strict : Bool) (tl : List (String × TValue)) :
    List (String × TValue) → List (String × TValue) → List (String × TValue)
  | acc, [] => acc
  | acc, (k, v) :: rest =>
    mergeDeepEntries strict tl (objSet acc k (mergeDeep strict (objLookup tl k) v)) rest
termination_by acc sl => sizeOf sl

/-- The same loop when the source of the object branch is an array: the
iterated keys are the array's decimal indices. -/
def mergeDeepArr (strict : Bool) (tl : List (String × TValue)) :
    List (String × TValue) → Nat → List TValue → List (String × TValue)
  | acc, _, [] => acc
  | acc, i, v :: rest =>
    mergeDeepArr strict tl
      (objSet acc (toString i) (mergeDeep strict (objLookup tl (toString i)) v)) (i + 1) rest
termination_by acc i sa => sizeOf sa

end

/-! ## String utilities for the pipeline

`Array.sort()`, `String.split`, `trim` and friends are re-implemented as
structural character-level functions so that every definition evaluates inside
the kernel.  JS sorts strings by UTF-16 code units and `localeCompare` by
locale collation; both are modelled by code-point order — the engine relies
only on the ordering being deterministic and identical across phases. -/

/-- Insertion step of the string sort. -/
def insertSorted (x : String) : List String → List String
  | [] => [x]
  | y :: rest => if x ≤ y then x :: y :: rest else y :: insertSorted x rest

/-- Deterministic string sort (model of `Array.sort()`). -/
def sortStrings (l : List String) : List String := l.foldr insertSorted []

/-- `[...new Set(l)]`: keep first occurrences, in order. -/
def dedupFirstAux (seen : List String) : List String → List String
  | [] => []
  | x :: rest =>
    if seen.contains x then dedupFirstAux seen rest
    else x :: dedupFirstAux (x :: seen) rest

/-- `[...new Set(l)]`. -/
def dedupFirst (l : List String) : List String := dedupFirstAux [] l

/-- `keyPath.split('.')` as a structural scan. -/
def splitDotAux (acc : List Char) : List Char → List String
  | [] => [String.mk acc.reverse]
  | c :: rest =>
    if c = '.' then String.mk acc.reverse :: splitDotAux [] rest
    else splitDotAux (c :: acc) rest

/-- `keyPath.split('.')`. -/
def splitDot (s : String) : List String := splitDotAux [] s.data

/-- `fullKey.split(':')[0]`. -/
def nsOf (k : String) : String := String.mk (k.data.takeWhile (· ≠ ':'))

/-- `fullKey.slice(n)` (characters, as the engine only uses ASCII keys). -/
def strDrop (s : String) (n : Nat) : String := String.mk (s.data.drop n)

/-- `a.startsWith(b)`. -/
def strStartsWith (s pre : String) : Bool := pre.data.isPrefixOf s.data

/-- JS whitespace test for `trim`-emptiness. -/
def isWsChar (c : Char) : Bool := c = ' ' || c = '\t' || c = '\n' || c = '\r'

/-! ## `JSON.stringify` -/

/-- One hex digit. -/
def hexDigit (n : Nat) : Char := "0123456789abcdef".data.getD n '0'

/-- Four-digit hex, for JSON control-character escapes. -/
def hex4 (n : Nat) : String :=
  String.mk [hexDigit (n / 4096 % 16), hexDigit (n / 256 % 16),
    hexDigit (n / 16 % 16), hexDigit (n % 16)]

/-- JSON escaping of one character, as `JSON.stringify` performs it. -/
def escapeJsonChar (c : Char) : String :=
  if c = '"' then "\\\""
  else if c = '\\' then "\\\\"
  else if c = '\n' then "\\n"
  else if c = '\r' then "\\r"
  else if c = '\t' then "\\t"
  else if c = '\x08' then "\\b"
  else if c = '\x0c' then "\\f"
  else if c.toNat < 32 then "\\u" ++ hex4 c.toNat
  else String.mk [c]

/-- A JSON string literal. -/
def jsonQuote (s : String) : String :=
  "\"" ++ String.join (s.data.map escapeJsonChar) ++ "\""

mutual

/-- `JSON.stringify` (compact form) of a `TValue`; the engine uses it only in
string comparisons (`isTranslated`, the write-avoidance check of `extract`). -/
def serialize : TValue → String
  | .str s => jsonQuote s
  | .num n => toString n
  | .bool b => cond b "true" "false"
  | .arr l => "[" ++ serializeList l ++ "]"
  | .obj l => "\x7b" ++ serializeEntries l ++ "\x7d"

/-- Comma-joined serialization of array elements. -/
def serializeList : List TValue → String
  | [] => ""
  | [v] => serialize v
  | v :: rest => serialize v ++ "," ++ serializeList rest

/-- Comma-joined serialization of object entries. -/
def serializeEntries : List (String × TValue) → String
  | [] => ""
  | [(k, v)] => jsonQuote k ++ ":" ++ serialize v
  | (k, v) :: rest => jsonQuote k ++ ":" ++ serialize v ++ "," ++ serializeEntries rest

end

/-! ## translate.ts: types and value flattening -/

/-- `BATCH_SIZE = 50` (translate.ts); the pipeline takes the batch size as an
explicit parameter and the program instantiates it with this constant. -/
def BATCH_SIZE : Nat := 50

/-- `TranslationBatch` (translate.ts). -/
structure TBatch where
  batchId : Nat
  language : String
  strings : List String

/-- `UntranslatedItem` (translate.ts). -/
structure UItem where
  ns : String
  keyPath : String
  defaultValue : TValue

/-- `HashEntry` (utils.ts), the per-key snapshot record. -/
structure HashEntry where
  hash : String
  defaultValue : TValue

/-- Insertion step of the entry sort of `collectUntranslated`. -/
def insertSortedBy (x : String × HashEntry) :
    List (String × HashEntry) → List (String × HashEntry)
  | [] => [x]
  | y :: rest => if x.1 ≤ y.1 then x :: y :: rest else y :: insertSortedBy x rest

/-- `entries.sort(([a], [b]) => a.localeCompare(b))`. -/
def sortEntries (l : List (String × HashEntry)) : List (String × HashEntry) :=
  l.foldr insertSortedBy []

mutual

/-- `flattenStrings` (translate.ts 142-149): the leaf strings of a value in
traversal order; number and boolean leaves contribute nothing. -/
def flattenStrings : TValue → List String
  | .str s => [s]
  | .arr l => flattenStringsList l
  | .obj l => flattenStringsEntries l
  | .num _ => []
  | .bool _ => []

/-- `value.flatMap(flattenStrings)` over an array. -/
def flattenStringsList : List TValue → List String
  | [] => []
  | v :: rest => flattenStrings v ++ flattenStringsList rest

/-- `Object.values(value).flatMap(flattenStrings)` over an object. -/
def flattenStringsEntries : List (String × TValue) → List String
  | [] => []
  | (_, v) :: rest => flattenStrings v ++ flattenStringsEntries rest

end

mutual

/-- `applyStrings` (translate.ts 151-160): rebuild the value replacing each
string leaf by `strings[cursor.i++] ?? leaf`, threading the cursor in the same
traversal order as `flattenStrings`; non-string leaves are returned
unchanged. -/
def applyStrings : TValue → List String → Nat → TValue × Nat
  | .str s, strings, i => (.str (strings.getD i s), i + 1)
  | .arr l, strings, i =>
    let r := applyStringsList l strings i
    (.arr r.1, r.2)
  | .obj l, strings, i =>
    let r := applyStringsEntries l strings i
    (.obj r.1, r.2)
  | v, _, i => (v, i)

/-- `value.map((v) => applyStrings(v, strings, cursor))`. -/
def applyStringsList : List TValue → List String → Nat → List TValue × Nat
  | [], _, i => ([], i)
  | v :: rest, strings, i =>
    let r := applyStrings v strings i
    let r2 := applyStringsList rest strings r.2
    (r.1 :: r2.1, r2.2)

/-- The `Object.entries` walk of `applyStrings` over an object. -/
def applyStringsEntries :
    List (String × TValue) → List String → Nat → List (String × TValue) × Nat
  | [], _, i => ([], i)
  | (k, v) :: rest, strings, i =>
    let r := applyStrings v strings i
    let r2 := applyStringsEntries rest strings r.2
    ((k, r.1) :: r2.1, r2.2)

end

mutual

/-- Verification helper (not from the source): blank out every string leaf.
Two values with the same `eraseStrings` image can differ only at string
leaves. -/
def eraseStrings : TValue → TValue
  | .str _ => .str ""
  | .arr l => .arr (eraseStringsList l)
  | .obj l => .obj (eraseStringsEntries l)
  | v => v

/-- `eraseStrings` over array elements. -/
def eraseStringsList : List TValue → List TValue
  | [] => []
  | v :: rest => eraseStrings v :: eraseStringsList rest

/-- `eraseStrings` over object entries. -/
def eraseStringsEntries : List (String × TValue) → List (String × TValue)
  | [] => []
  | (k, v) :: rest => (k, eraseStrings v) :: eraseStringsEntries rest

end

/-! ## Document lookups and `isTranslated` -/

/-- One step of `o?.[k]`: property access on an object, decimal index access
on an array, `undefined` on leaves.  (JS string-character indexing and the
`length` property of arrays are not exercised by the engine's key paths.) -/
def getSeg (v : TValue) (k : String) : Option TValue :=
  match v with
  | .obj l => objLookup l k
  | .arr l =>
    if k.data ≠ [] ∧ k.data.all (·.isDigit) then
      l.get? (k.data.foldl (fun n c => n * 10 + (c.toNat - 48)) 0)
    else none
  | _ => none

/-- `path.split('.').reduce((o, k) => o?.[k], obj)` (translate.ts 124-126,
status.ts 4-6). -/
def getNested (o : Option TValue) (path : List String) : Option TValue :=
  path.foldl (fun acc k => acc.bind (fun v => getSeg v k)) o

/-- `typeof value === 'string' && !value.trim()`. -/
def isBlankString : TValue → Bool
  | .str s => s.data.all isWsChar
  | _ => false

/-- `isTranslated` (translate.ts 135-139, status.ts 8-18): an absent or blank
value is untranslated; otherwise the value counts as translated iff its JSON
serialization differs from that of the skeleton of the default value. -/
def isTranslated (value : Option TValue) (defaultValue : TValue) : Bool :=
  match value with
  | none => false
  | some v =>
    if isBlankString v then false
    else serialize v != serialize (generateSkeleton defaultValue)

/-- `collectUntranslated` (translate.ts 166-187): namespaces are the sorted
set of first segments of the snapshot keys; within a namespace the snapshot
entries are sorted by full key; an item is emitted for every key whose current
document value is not translated.  `docs` maps a namespace to the parsed
content of the language's namespace document (an absent or corrupt file loads
as the empty object). -/
def collectUntranslated (hashes : List (String × HashEntry))
    (docs : String → List (String × TValue)) : List UItem :=
  let namespaces := sortStrings (dedupFirst (hashes.map (fun p => nsOf p.1)))
  namespaces.flatMap (fun ns =>
    (sortEntries (hashes.filter (fun p => strStartsWith p.1 (ns ++ ":")))).filterMap
      (fun p =>
        let keyPath := strDrop p.1 (ns.length + 1)
        if isTranslated (getNested (some (.obj (docs ns))) (splitDot keyPath))
            p.2.defaultValue
        then none
        else some ⟨ns, keyPath, p.2.defaultValue⟩))

/-! ## translate.ts: reassembly (applyTranslations, lines 240-281) -/

/-- The flattened-leaf count of one item (translate.ts 245). -/
def itemCount (it : UItem) : Nat := (flattenStrings it.defaultValue).length

/-- The cumulative offset of item `i` in the per-language flat string array
(translate.ts 247). -/
def itemOffset (items : List UItem) (i : Nat) : Nat :=
  ((items.map itemCount).take i).sum

/-- The length of the per-language flat string array (translate.ts 246-247,
also `allStrings.length` of the build phase, line 319). -/
def totalCount (items : List UItem) : Nat := (items.map itemCount).sum

/-- The sentinel-prefilled result array as a function from position to filled
value: each settled response writes its strings at
`batchId * batchSize + localIndex`; writes at or beyond `total` are dropped;
`none` is the `null` sentinel. -/
def translatedSlot (batchSize total : Nat) (responses : List TBatch) (p : Nat) :
    Option String :=
  responses.foldl (fun acc b =>
    if b.batchId * batchSize ≤ p ∧ p < b.batchId * batchSize + b.strings.length ∧
        p < total
    then b.strings.get? (p - b.batchId * batchSize)
    else acc) none

/-- `translated.slice(off, off + cnt)` of the sentinel array. -/
def sliceSlots (batchSize total : Nat) (responses : List TBatch) (off cnt : Nat) :
    List (Option String) :=
  (List.range cnt).map (fun j => translatedSlot batchSize total responses (off + j))

/-- translate.ts 244-268, after the re-collection: per-item counts, cumulative
offsets, and the changes `(namespace, keyPath, rebuilt value)` for exactly the
items whose slice `[offset, offset + count)` contains no sentinel, in item
order.  The subsequent write loop (lines 271-278) applies every change to the
language's documents. -/
def applyTranslationsCore (batchSize : Nat) (items : List UItem)
    (responses : List TBatch) : List (String × String × TValue) :=
  items.enum.filterMap (fun q =>
    let off := itemOffset items q.1
    let cnt := itemCount q.2
    let slice := sliceSlots batchSize (totalCount items) responses off cnt
    if slice.all (fun o => o.isSome) then
      some (q.2.ns, q.2.keyPath,
        (applyStrings q.2.defaultValue (slice.map (fun o => o.getD "")) 0).1)
    else none)

/-- `applyTranslations` (translate.ts 240-281): re-collect the untranslated
items (the same deterministic derivation as the build phase) and reassemble. -/
def applyTranslationsModel (batchSize : Nat) (hashes : List (String × HashEntry))
    (docs : String → List (String × TValue)) (responses : List TBatch) :
    List (String × String × TValue) :=
  applyTranslationsCore batchSize (collectUntranslated hashes docs) responses

/-! ## extract.ts: AST value extraction (getNodeValue, processTranslationCall) -/

mutual

/-- The TypeScript expression forms distinguished by `getNodeValue`
(extract.ts 37-78): string literals (including no-substitution templates),
numeric literals, the boolean keywords, identifiers, array literals, object
literals, and `other` for every remaining expression form (calls, template
substitutions, arrow functions, ...). -/
inductive Node where
  | strLit : String → Node
  | numLit : Int → Node
  | trueKw : Node
  | falseKw : Node
  | ident : String → Node
  | arrayLit : List Node → Node
  | objectLit : List (PropKey × Node) → Node
  | other : Node

/-- An object-literal member's name: a plain identifier, a string literal, or
anything else (a computed name; a non-assignment member such as a shorthand or
spread behaves identically to an unresolvable name — both are skipped). -/
inductive PropKey where
  | identKey : String → PropKey
  | strKey : String → PropKey
  | otherKey : PropKey

end

mutual

/-- `getNodeValue` (extract.ts 37-78): literals evaluate to themselves,
identifiers resolve through the per-file constant scope (`undefined` when
absent), arrays keep the defined element values (unsupported elements are
filtered out), objects keep the properties with a resolvable name and a
defined value; every other form is `undefined`. -/
def getNodeValue (scope : List (String × TValue)) : Node → Option TValue
  | .strLit s => some (.str s)
  | .numLit n => some (.num n)
  | .trueKw => some (.bool true)
  | .falseKw => some (.bool false)
  | .ident x => objLookup scope x
  | .arrayLit elems => some (.arr (getNodeValueList scope elems))
  | .objectLit props => some (.obj (getNodeValueProps scope [] props))
  | .other => none

/-- `node.elements.map(getNodeValue).filter((v) => v !== undefined)`. -/
def getNodeValueList (scope : List (String × TValue)) : List Node → List TValue
  | [] => []
  | n :: rest =>
    match getNodeValue scope n with
    | some v => v :: getNodeValueList scope rest
    | none => getNodeValueList scope rest

/-- The property loop of the object branch: `obj[key] = val` for every
property assignment with a resolvable name and a defined value. -/
def getNodeValueProps (scope : List (String × TValue))
    (acc : List (String × TValue)) :
    List (PropKey × Node) → List (String × TValue)
  | [] => acc
  | (name, init) :: rest =>
    match (match name with
           | .identKey k => some k
           | .strKey k => some k
           | .otherKey => none),
        getNodeValue scope init with
    | some k, some v => getNodeValueProps scope (objSet acc k v) rest
    | _, _ => getNodeValueProps scope acc rest

end

/-- A call expression: callee and arguments.  (`processTranslationCall` only
processes calls whose callee is the bare identifier `t`.) -/
structure CallExpr where
  callee : Node
  args : List Node

/-- `ExtractedKey` (utils.ts), without the source-location log artifact. -/
structure XKey where
  ns : String
  keyPath : String
  defaultValue : TValue

/-- `processTranslationCall` (extract.ts 223-279): for a call `t(k, opts)`
with a string-literal key and an object-literal options argument, every
property assignment whose identifier name starts with `defaultValue` and whose
initializer resolves to a value yields one `keys.set(fullKey, ...)`; the
suffix after `defaultValue` is appended to the key path, and an explicit
`ns:` prefix in the key literal overrides the active namespace.  The returned
list holds the `(fullKey, ExtractedKey)` insertions in order. -/
def processTranslationCall (scope : List (String × TValue))
    (activeNamespace : String) (call : CallExpr) : List (String × XKey) :=
  match call.callee with
  | .ident callName =>
    if callName = "t" then
      match call.args with
      | keyNode :: optionsNode :: _ =>
        match keyNode, optionsNode with
        | .strLit rawKey, .objectLit props =>
          props.filterMap (fun p =>
            match p.1 with
            | .identKey propName =>
              if strStartsWith propName "defaultValue" then
                match getNodeValue scope p.2 with
                | some dv =>
                  let suffix := if propName = "defaultValue" then ""
                    else strDrop propName 12
                  let hasNs := rawKey.data.any (· = ':')
                  let ns := if hasNs then nsOf rawKey else activeNamespace
                  let keyPath := if hasNs then strDrop rawKey ((nsOf rawKey).length + 1)
                    else rawKey
                  let finalKeyPath := keyPath ++ suffix
                  some (ns ++ ":" ++ finalKeyPath, ⟨ns, finalKeyPath, dv⟩)
                | none => none
              else none
            | _ => none)
        | _, _ => []
      | _ => []
    else []
  | _ => []

/-! ## status.ts -/

/-- `Math.round(100 * t / n)` over naturals (`floor(x + 1/2)` for the
non-negative arguments that arise here). -/
def jsRoundPct (t n : Nat) : Nat := (200 * t + n) / (2 * n)

/-- `fullKey.split(':')[1]` (status.ts 46): the segment between the first and
second colon.  (Every snapshot key produced by extraction contains a colon.) -/
def secondSeg (k : String) : String :=
  String.mk (((k.data.dropWhile (· ≠ ':')).drop 1).takeWhile (· ≠ ':'))

/-- The current value the status reporter reads for a snapshot key: the
namespace document is the key's first segment, the path is the second
segment split on dots (status.ts 46-47). -/
def statusValueAt (docs : String → List (String × TValue)) (k : String) :
    Option TValue :=
  getNested (some (.obj (docs (nsOf k)))) (splitDot (secondSeg k))

/-- `translatedCount` for one language (status.ts 34-55): iterate the set of
namespaces appearing in the snapshot, and within each namespace count the
snapshot entries whose current value is translated. -/
def statusCount (hashes : List (String × HashEntry))
    (docs : String → List (String × TValue)) : Nat :=
  ((dedupFirst (hashes.map (fun p => nsOf p.1))).map (fun ns =>
    (hashes.filter (fun p => strStartsWith p.1 (ns ++ ":"))).countP (fun p =>
      isTranslated (statusValueAt docs p.1) p.2.defaultValue))).sum

/-- `Math.round((translatedCount / totalKeys) * 100)` (status.ts 57), with
`totalKeys` the total number of snapshot entries across namespaces. -/
def statusPercentage (hashes : List (String × HashEntry))
    (docs : String → List (String × TValue)) : Nat :=
  jsRoundPct (statusCount hashes docs) hashes.length

/-- Concrete 200-key snapshot for exercising the percentage rounding: keys
`n:a`, `n:aa`, ..., all with boolean defaults (whose skeleton is `""`). -/
def c9exHashes : List (String × HashEntry) :=
  (List.range 200).map (fun i =>
    ("n:" ++ String.mk (List.replicate (i + 1) 'a'), ⟨"h", .bool true⟩))

/-- Document state with exactly one translated key (`n:a`). -/
def c9exDoc1 : String → List (String × TValue) :=
  fun ns => if ns = "n" then [("a", .bool true)] else []

/-- Document state with exactly two translated keys (`n:a` and `n:aa`). -/
def c9exDoc2 : String → List (String × TValue) :=
  fun ns => if ns = "n" then [("a", .bool true), ("aa", .bool true)] else []

/-! ## translate.ts: the command (lines 287-363) -/

/-- One `callAI` (translate.ts 193-234): the missing-credential check throws
before the HTTP request is made; the external service is an oracle from the
batch's strings to either a failure (non-success status, missing/malformed
JSON) or a returned string list, which is then length-checked.  The result is
the settled outcome of the batch's promise under `Promise.allSettled`. -/
def callAIModel (apiKey : Option String)
    (service : List String → Except String (List String)) (b : TBatch) :
    Except String TBatch :=
  match apiKey with
  | none => .error "ANTHROPIC_API_KEY is not set"
  | some _ =>
    match service b.strings with
    | .error e => .error e
    | .ok translated =>
      if translated.length = b.strings.length then
        .ok ⟨b.batchId, b.language, translated⟩
      else .error "length mismatch"

/-- The build phase (translate.ts 309-327): per target language, collect the
untranslated items, flatten them into one string array, and cut it into
`ceil(length / batchSize)` contiguous batches tagged with their index. -/
def buildBatches (batchSize : Nat) (hashes : List (String × HashEntry))
    (docsOf : String → String → List (String × TValue))
    (targetLangs : List String) : List TBatch :=
  targetLangs.flatMap (fun lang =>
    let items := collectUntranslated hashes (docsOf lang)
    let strings := items.flatMap (fun it => flattenStrings it.defaultValue)
    (List.range ((strings.length + batchSize - 1) / batchSize)).map (fun i =>
      ⟨i, lang, (strings.drop (i * batchSize)).take batchSize⟩))

/-- The observable outcome of one `translate` run: how many batches were
dispatched, how many failed, and how many keys were applied per language. -/
structure TranslateReport where
  batchesBuilt : Nat
  failedCount : Nat
  appliedPerLang : List (String × Nat)

/-- `translate` (translate.ts 287-363): early-return when the snapshot is
empty or no target language remains; otherwise build all batches across all
languages, fire them all under settle-all semantics, group the fulfilled
responses by language, and apply them per language.  The target-language list
(the configured languages minus the source language, optionally narrowed by
the CLI argument) is a parameter. -/
def translateModel (batchSize : Nat) (apiKey : Option String)
    (service : String → List String → Except String (List String))
    (hashes : List (String × HashEntry))
    (docsOf : String → String → List (String × TValue))
    (targetLangs : List String) : TranslateReport :=
  if hashes.length = 0 then ⟨0, 0, []⟩
  else if targetLangs.length = 0 then ⟨0, 0, []⟩
  else
    let batches := buildBatches batchSize hashes docsOf targetLangs
    let results := batches.map (fun b => callAIModel apiKey (service b.language) b)
    let failed := results.countP (fun r => match r with
      | .error _ => true
      | .ok _ => false)
    let fulfilledOf := fun lang => results.filterMap (fun r => match r with
      | .ok b => if b.language = lang then some b else none
      | .error _ => none)
    ⟨batches.length, failed,
      (targetLangs.filter (fun lang => !(fulfilledOf lang).isEmpty)).map (fun lang =>
        (lang, (applyTranslationsModel batchSize hashes (docsOf lang)
          (fulfilledOf lang)).length))⟩

/-! ## extract.ts: nested reads and writes, hash classification, document loop -/

/-- The `key in current` test of `getNestedValue` (extract.ts 423): a present
own property of an object, or an in-bounds decimal index of an array
(inherited prototype properties are never data of a parsed translation
document and are not modelled). -/
def keyIn (v : TValue) (k : String) : Bool :=
  match v with
  | .obj l => l.any (fun p => p.1 == k)
  | .arr l =>
    if k.data ≠ [] ∧ k.data.all (·.isDigit) then
      decide ((k.data.foldl (fun n c => n * 10 + (c.toNat - 48)) 0) < l.length)
    else false
  | _ => false

/-- `getNestedValue` (extract.ts 417-429): walk the dotted path, descending
only while the current value is a container having the key, `undefined`
otherwise. -/
def getNestedValue (json : List (String × TValue)) (path : List String) :
    Option TValue :=
  path.foldl (fun acc k =>
    acc.bind (fun v => if keyIn v k then getSeg v k else none))
    (some (.obj json))

/-- JS assignment `current[key] = value` on a container (extract.ts 408 and
412): object property write; array element write at an in-bounds or appending
decimal index (an out-of-range or non-numeric array write creates a slot that
`JSON.stringify` does not serialize, modelled as a no-op); an assignment into
a primitive is lost. -/
def setIdx (cur : TValue) (k : String) (v : TValue) : TValue :=
  match cur with
  | .obj l => .obj (objSet l k v)
  | .arr l =>
    if k.data ≠ [] ∧ k.data.all (·.isDigit) then
      let i := k.data.foldl (fun n c => n * 10 + (c.toNat - 48)) 0
      if i < l.length then .arr (l.set i v)
      else if i = l.length then .arr (l ++ [v])
      else cur
    else cur
  | _ => cur

/-- `setNestedValue` (extract.ts 402-413): walk all but the last path segment,
replacing a missing or non-object intermediate (`!(key in current) ||
typeof current[key] !== 'object' || current[key] === null`) by a fresh empty
object, then assign the value at the last segment. -/
def setNestedValue (cur : TValue) : List String → TValue → TValue
  | [], _ => cur
  | [k], v => setIdx cur k v
  | k :: k2 :: rest, v =>
    let child := match getSeg cur k with
      | some c => if jsTypeof c = "object" then c else TValue.obj []
      | none => TValue.obj []
    setIdx cur k (setNestedValue child (k2 :: rest) v)

/-- `setNestedValue` on a parsed document (the JSON root is an object, and
stays one). -/
def setNestedDoc (json : List (String × TValue)) (path : List String)
    (v : TValue) : List (String × TValue) :=
  match setNestedValue (.obj json) path v with
  | .obj l => l
  | _ => json

/-- Lookup in a hash-snapshot record. -/
def hashLookup : List (String × HashEntry) → String → Option HashEntry
  | [], _ => none
  | (k', e) :: rest, k => if k' = k then some e else hashLookup rest k

/-- The change-detection loop of `extract` (extract.ts 444-457): each scanned
key (full key, key path, default value) is hashed; the new snapshot maps every
scanned key to its hash and default value; a key absent from the old snapshot
is counted added, one whose stored hash differs is counted changed.
`quickHash` (`Bun.hash` of the JSON serialization, utils.ts 131-133) is an
opaque deterministic function, passed as `hashFn`. -/
def classifyKeys (hashFn : TValue → String)
    (oldHashes : List (String × HashEntry)) :
    List (String × String × TValue) →
      List (String × HashEntry) × List String × List String
  | [] => ([], [], [])
  | (fullKey, _, dv) :: rest =>
    let h := hashFn dv
    let r := classifyKeys hashFn oldHashes rest
    match hashLookup oldHashes fullKey with
    | none => ((fullKey, ⟨h, dv⟩) :: r.1, fullKey :: r.2.1, r.2.2)
    | some old =>
      ((fullKey, ⟨h, dv⟩) :: r.1, r.2.1,
        if old.hash ≠ h then fullKey :: r.2.2 else r.2.2)

/-- The configured value of `behavior.fillEmptyWithSource` (config.ts). -/
def fillEmptyWithSource : Bool := true

/-- One step of the per-namespace key loop of `extract` (extract.ts 482-505)
on one language document, for a scanned key `q` = (full key, key path, default
value) of that namespace: the default-language branch writes the default value
when the key is changed or its path unresolved; the non-source branch
recomputes the merge of the existing value with the candidate (the raw
default value under `fillEmptyWithSource`, its skeleton otherwise) and writes
it only when its serialization differs from the existing value's
(`JSON.stringify(undefined)` is `undefined`, never equal to a string). -/
def extractDocStep (isDefaultLang : Bool) (changed : List String)
    (acc : List (String × TValue) × Bool) (q : String × String × TValue) :
    List (String × TValue) × Bool :=
  let isChanged := changed.contains q.1
  let existingValue := getNestedValue acc.1 (splitDot q.2.1)
  if isDefaultLang then
    if isChanged || existingValue.isNone then
      (setNestedDoc acc.1 (splitDot q.2.1) q.2.2, true)
    else acc
  else
    let newContent := if fillEmptyWithSource then q.2.2 else generateSkeleton q.2.2
    let mergedValue := mergeDeep syncTranslationsStrictly existingValue newContent
    if existingValue.map serialize ≠ some (serialize mergedValue) then
      (setNestedDoc acc.1 (splitDot q.2.1) mergedValue, true)
    else acc

/-- The per-namespace document loop of `extract` (extract.ts 478-511): fold
the scanned keys of the namespace over the parsed document, tracking the
`fileModified` flag that gates `saveJsonFile`. -/
def extractDoc (isDefaultLang : Bool) (changed : List String)
    (keys : List (String × String × TValue)) (json : List (String × TValue)) :
    List (String × TValue) × Bool :=
  keys.foldl (extractDocStep isDefaultLang changed) (json, false)

/-- Duplicate-key test on a key list. -/
def hasDupKeys : List String → Bool
  | [] => false
  | k :: rest => rest.contains k || hasDupKeys rest

mutual

/-- No array occurs anywhere in the value. -/
def noArrT : TValue → Bool
  | .str _ => true
  | .num _ => true
  | .bool _ => true
  | .arr _ => false
  | .obj l => noArrTEntries l

/-- `noArrT` over object entries. -/
def noArrTEntries : List (String × TValue) → Bool
  | [] => true
  | (_, v) :: rest => noArrT v && noArrTEntries rest

end

mutual

/-- Every object inside the value has pairwise-distinct keys (inherent to
parsed JSON documents and to extracted object literals). -/
def wfKeys : TValue → Bool
  | .str _ => true
  | .num _ => true
  | .bool _ => true
  | .arr l => wfKeysList l
  | .obj l => !hasDupKeys (l.map Prod.fst) && wfKeysEntries l

/-- `wfKeys` over array elements. -/
def wfKeysList : List TValue → Bool
  | [] => true
  | v :: rest => wfKeys v && wfKeysList rest

/-- `wfKeys` over object entries. -/
def wfKeysEntries : List (String × TValue) → Bool
  | [] => true
  | (_, v) :: rest => wfKeys v && wfKeysEntries rest

end

/-- Proof-internal invariant for the extraction loop: the key's path resolves
in the document, and — for a non-source language — the resolved value is a
serialization fixed point of re-merging the key's candidate content. -/
def stableKey (isDefaultLang : Bool) (json : List (String × TValue))
    (q : String × String × TValue) : Prop :=
  ∃ m, getNestedValue json (splitDot q.2.1) = some m ∧
    (isDefaultLang = false →
      serialize (mergeDeep true (some m) q.2.2) = serialize m)

/-- Keys of the extraction counterexample: the dotted path `a.b` alongside its
strict prefix `a`, in scan order. -/
def c3exKeys : List (String × String × TValue) :=
  [("n:a.b", "a.b", .str "X"), ("n:a", "a", .str "Y")]

/-- Old snapshot for the counterexample: `n:a` is present with a stale hash
(its default value changed since the previous extraction), `n:a.b` is new. -/
def c3exOld : List (String × HashEntry) := [("n:a", ⟨"old", .str "Y"⟩)]

/-- Witness snapshot for the idempotence theorem: two prefix-incompatible
keys, one with a numeric default. -/
def c3wKeys : List (String × String × TValue) :=
  [("n:x.y", "x.y", .str "A"), ("n:z", "z", .num 3)]

/-! ## clean.ts: flattening, nested removal, per-namespace pass -/

mutual

/-- `getFlattenedKeys` (clean.ts 19-40) over the entries of one object:
every entry contributes its flattened keys in order. -/
def getFlattenedKeys (ns : String) (valid : List String) (pre : String) :
    List (String × TValue) → List String
  | [] => []
  | (k, v) :: rest =>
    getFlattenedEntry ns valid pre k v ++ getFlattenedKeys ns valid pre rest

/-- One entry of `getFlattenedKeys`: a path listed in the valid-key set is a
leaf; otherwise a plain (non-array) object value recurses with the extended
dotted path, and any other value is a leaf. -/
def getFlattenedEntry (ns : String) (valid : List String) (pre k : String) :
    TValue → List String
  | .obj l =>
    if valid.contains (ns ++ ":" ++ (if pre = "" then k else pre ++ "." ++ k))
    then [ns ++ ":" ++ (if pre = "" then k else pre ++ "." ++ k)]
    else getFlattenedKeys ns valid (if pre = "" then k else pre ++ "." ++ k) l
  | _ => [ns ++ ":" ++ (if pre = "" then k else pre ++ "." ++ k)]

end

/-- `removeNestedKey` (clean.ts 48-74): delete the path's leaf entry; walking
down, a child object that became completely empty is deleted from its parent
(`delete` on a JS object keeps the other properties in insertion order,
modelled by a key filter); a path whose next step is not a plain object
leaves the document unchanged (an array intermediate never occurs on a
flattened key's path, as flattening treats arrays as leaves). -/
def removeNestedKey (obj : List (String × TValue)) :
    List String → List (String × TValue)
  | [] => obj
  | [k] => obj.filter (fun p => decide (p.1 ≠ k))
  | k :: k2 :: rest =>
    match objLookup obj k with
    | some (.obj child) =>
      let updated := removeNestedKey child (k2 :: rest)
      if updated.length = 0 then obj.filter (fun p => decide (p.1 ≠ k))
      else objSet obj k (.obj updated)
    | _ => obj

/-- `fullKey.split(':').slice(1).join(':')` (clean.ts 122): everything after
the first colon. -/
def afterColon (k : String) : String :=
  String.mk ((k.data.dropWhile (· ≠ ':')).drop 1)

/-- The fate of one namespace file after `clean`'s loop body (clean.ts
108-147). -/
inductive FileFate where
  | untouched : FileFate
  | saved : FileFate
  | savedEmpty : FileFate
  | deleted : FileFate
deriving DecidableEq

/-- One namespace's pass of `clean` (clean.ts 108-147): flatten the file's
keys, remove every key absent from the valid set, then — if anything was
removed — delete the file when it became empty and `removeEmptyFiles` is
configured (the repository configures it `true`), save it as an empty mapping
when it became empty otherwise, and save the cleaned content else. -/
def cleanNamespace (removeEmptyFiles : Bool) (valid : List String) (ns : String)
    (json : List (String × TValue)) : List (String × TValue) × FileFate :=
  let fileKeys := getFlattenedKeys ns valid "" json
  let keysToRemove := fileKeys.filter (fun k => !valid.contains k)
  if keysToRemove.length = 0 then (json, .untouched)
  else
    let json2 := keysToRemove.foldl
      (fun j fk => removeNestedKey j (splitDot (afterColon fk))) json
    if json2.length = 0 then
      if removeEmptyFiles then (json2, .deleted) else (json2, .savedEmpty)
    else (json2, .saved)

/-- After the namespace loop, `clean` regenerates the language's index from
the files now on disk (clean.ts 149-151): a deleted file drops out of the
index, while a file kept as an empty mapping is still listed. -/
def indexListsNamespace : FileFate → Bool
  | .deleted => false
  | _ => true

/-- Witness document for the cleaner theorem: one still-valid key and one
nested key whose call site was removed. -/
def c6wJson : List (String × TValue) :=
  [("keep", .str "A"), ("x", .obj [("y", .str "B")])]

/-! # THEOREMS -/

/-! ## Scanner lemmas -/

theorem spanSplit (p : Char → Bool) (x l : List Char)
    (hx : ∀ c ∈ x, p c = true) (hl : ∀ c, l.head? = some c → p c = false) :
    (x ++ l).takeWhile p = x ∧ (x ++ l).dropWhile p = l := by
  induction x with
  | nil =>
    cases l with
    | nil => simp
    | cons c l' =>
      have hc := hl c rfl
      simp [List.takeWhile_cons, List.dropWhile_cons, hc]
  | cons c x' ih =>
    have hc := hx c (by simp)
    have ih' := ih (fun d hd => hx d (List.mem_cons_of_mem _ hd))
    simp [List.takeWhile_cons, List.dropWhile_cons, hc, ih'.1, ih'.2]

theorem scanInterps_skip {c : Char} (l : List Char) (h : c ≠ '\x7b') :
    scanInterps (c :: l) = scanInterps l := by
  rw [scanInterps.eq_def]
  split
  · simp_all
  · rename_i a head rest hcond heq
    injection heq with h1 h2
    subst h1 h2
    rfl
  · rename_i a heq
    exact absurd heq (by simp)

theorem scanInterps_append (l1 l2 : List Char) (h : ∀ c ∈ l1, c ≠ '\x7b') :
    scanInterps (l1 ++ l2) = scanInterps l2 := by
  induction l1 with
  | nil => rfl
  | cons c l1' ih =>
    rw [List.cons_append, scanInterps_skip _ (h c (by simp))]
    exact ih (fun d hd => h d (by simp [hd]))

theorem scanInterps_nil : scanInterps [] = [] := by
  rw [scanInterps.eq_def]

theorem scanInterps_none (l : List Char) (h : ∀ c ∈ l, c ≠ '\x7b') : scanInterps l = [] := by
  have h2 := scanInterps_append l [] h
  rw [scanInterps_nil] at h2
  simpa using h2

theorem scanInterps_tokenStep (x l : List Char) (hne : x ≠ []) (hx : ∀ c ∈ x, c ≠ '\x7d') :
    scanInterps ('\x7b' :: '\x7b' :: (x ++ '\x7d' :: '\x7d' :: l)) =
      String.mk ('\x7b' :: '\x7b' :: (x ++ ['\x7d', '\x7d'])) :: scanInterps l := by
  have hspan := spanSplit (fun c => decide (c ≠ '\x7d')) x ('\x7d' :: '\x7d' :: l)
    (fun c hc => by simpa using hx c hc) (fun c hc => by simp at hc; subst hc; simp)
  rw [scanInterps.eq_def]
  split
  · rename_i a rest heq
    injection heq with h1 h2
    injection h2 with h2 h3
    subst h3
    rw [hspan.1, hspan.2]
    simp [hne]
  · rename_i a head rest hcond heq
    injection heq with h1 h2
    exact (hcond (x ++ '\x7d' :: '\x7d' :: l) h1.symm h2.symm).elim
  · rename_i a heq
    exact absurd heq (by simp)

theorem scanTags_skip {c : Char} (l : List Char) (h : c ≠ '<') :
    scanTags (c :: l) = scanTags l := by
  rw [scanTags.eq_def]
  split
  · simp_all
  · rename_i a head rest hcond heq
    injection heq with h1 h2
    subst h1 h2
    rfl
  · rename_i a heq
    exact absurd heq (by simp)

theorem scanTags_append (l1 l2 : List Char) (h : ∀ c ∈ l1, c ≠ '<') :
    scanTags (l1 ++ l2) = scanTags l2 := by
  induction l1 with
  | nil => rfl
  | cons c l1' ih =>
    rw [List.cons_append, scanTags_skip _ (h c (by simp))]
    exact ih (fun d hd => h d (by simp [hd]))

theorem scanTags_nil : scanTags [] = [] := by
  rw [scanTags.eq_def]

theorem scanTags_none (l : List Char) (h : ∀ c ∈ l, c ≠ '<') : scanTags l = [] := by
  have h2 := scanTags_append l [] h
  rw [scanTags_nil] at h2
  simpa using h2

theorem scanTags_tokenStep (t l : List Char) (hne : t ≠ []) (ht : ∀ c ∈ t, c ≠ '>') :
    scanTags ('<' :: (t ++ '>' :: l)) =
      String.mk ('<' :: (t ++ ['>'])) :: scanTags l := by
  have hspan := spanSplit (fun c => decide (c ≠ '>')) t ('>' :: l)
    (fun c hc => by simpa using ht c hc) (fun c hc => by simp at hc; subst hc; simp)
  rw [scanTags.eq_def]
  split
  · rename_i a rest heq
    injection heq with h1 h2
    subst h2
    rw [hspan.1, hspan.2]
    simp [hne]
  · rename_i a head rest hcond heq
    injection heq with h1 h2
    exact (hcond h1.symm).elim
  · rename_i a heq
    exact absurd heq (by simp)

theorem stringDataEq {a b : String} (h : a.data = b.data) : a = b := by
  cases a
  cases b
  exact congrArg String.mk h

theorem intercalatePair (a b : String) : String.intercalate " " [a, b] = a ++ " " ++ b := by
  simp [String.intercalate, String.intercalate.go]

theorem generateSkeleton_str (s : String) :
    generateSkeleton (.str s) =
      .str (String.intercalate " " (scanInterps s.data ++ scanTags s.data)) := rfl

/-! ## C4: token extraction of `generateSkeleton` on string leaves -/

/-- C4 (amended): `generateSkeleton` on a string yields the interpolation
placeholders first — in their order of appearance — followed by the markup
tags in their order of appearance, joined by single spaces, with all other
literal text discarded.  The two token kinds are NOT interleaved in overall
order of appearance: here the input has the tag `<t>` before the placeholder,
yet the placeholder token comes first in the output. -/
theorem c4_skeleton_tokens_by_kind (w1 t w2 x w3 : String)
    (hw1 : ∀ c ∈ w1.data, c ≠ '\x7b' ∧ c ≠ '\x7d' ∧ c ≠ '<' ∧ c ≠ '>')
    (ht0 : t.data ≠ []) (ht : ∀ c ∈ t.data, c ≠ '\x7b' ∧ c ≠ '\x7d' ∧ c ≠ '<' ∧ c ≠ '>')
    (hw2 : ∀ c ∈ w2.data, c ≠ '\x7b' ∧ c ≠ '\x7d' ∧ c ≠ '<' ∧ c ≠ '>')
    (hx0 : x.data ≠ []) (hx : ∀ c ∈ x.data, c ≠ '\x7b' ∧ c ≠ '\x7d' ∧ c ≠ '<' ∧ c ≠ '>')
    (hw3 : ∀ c ∈ w3.data, c ≠ '\x7b' ∧ c ≠ '\x7d' ∧ c ≠ '<' ∧ c ≠ '>') :
    generateSkeleton
        (.str (w1 ++ "<" ++ t ++ ">" ++ w2 ++ "\x7b\x7b" ++ x ++ "\x7d\x7d" ++ w3)) =
      .str ("\x7b\x7b" ++ x ++ "\x7d\x7d" ++ " " ++ "<" ++ t ++ ">") := by
  have hdata : (w1 ++ "<" ++ t ++ ">" ++ w2 ++ "\x7b\x7b" ++ x ++ "\x7d\x7d" ++ w3).data
      = (w1.data ++ '<' :: t.data ++ '>' :: w2.data) ++
          ('\x7b' :: '\x7b' :: (x.data ++ '\x7d' :: '\x7d' :: w3.data)) := by simp
  have hdata' : (w1 ++ "<" ++ t ++ ">" ++ w2 ++ "\x7b\x7b" ++ x ++ "\x7d\x7d" ++ w3).data
      = w1.data ++ '<' :: (t.data ++ '>' ::
          (w2.data ++ '\x7b' :: '\x7b' :: (x.data ++ '\x7d' :: '\x7d' :: w3.data))) := by simp
  have hno1 : ∀ c ∈ (w1.data ++ '<' :: t.data ++ '>' :: w2.data), c ≠ '\x7b' := by
    intro c hc
    simp at hc
    rcases hc with hc | hc | hc | hc | hc
    · exact (hw1 c hc).1
    · subst hc; decide
    · exact (ht c hc).1
    · subst hc; decide
    · exact (hw2 c hc).1
  have hno2 : ∀ c ∈ (w2.data ++ '\x7b' :: '\x7b' ::
      (x.data ++ '\x7d' :: '\x7d' :: w3.data)), c ≠ '<' := by
    intro c hc
    simp at hc
    rcases hc with hc | hc | hc | hc | hc
    · exact (hw2 c hc).2.2.1
    · subst hc; decide
    · exact (hx c hc).2.2.1
    · subst hc; decide
    · exact (hw3 c hc).2.2.1
  have hInterps :
      scanInterps (w1 ++ "<" ++ t ++ ">" ++ w2 ++ "\x7b\x7b" ++ x ++ "\x7d\x7d" ++ w3).data
        = [String.mk ('\x7b' :: '\x7b' :: (x.data ++ ['\x7d', '\x7d']))] := by
    rw [hdata, scanInterps_append _ _ hno1,
      scanInterps_tokenStep x.data w3.data hx0 (fun c hc => (hx c hc).2.1),
      scanInterps_none w3.data (fun c hc => (hw3 c hc).1)]
  have hTags :
      scanTags (w1 ++ "<" ++ t ++ ">" ++ w2 ++ "\x7b\x7b" ++ x ++ "\x7d\x7d" ++ w3).data
        = [String.mk ('<' :: (t.data ++ ['>']))] := by
    rw [hdata', scanTags_append _ _ (fun c hc => (hw1 c hc).2.2.1)]
    rw [scanTags_tokenStep t.data _ ht0 (fun c hc => (ht c hc).2.2.2)]
    rw [scanTags_none _ hno2]
  rw [generateSkeleton_str, hInterps, hTags]
  congr 1
  rw [List.singleton_append, intercalatePair]
  apply stringDataEq
  simp

/-- C4 counterexample: in the input the markup tag comes before the
placeholder, yet `generateSkeleton` emits the placeholder token first —
the output is not the original-order token sequence. -/
theorem c4_counterexample :
    generateSkeleton (.str "<b>hi</b> \x7b\x7bname\x7d\x7d") =
        .str "\x7b\x7bname\x7d\x7d <b> </b>" ∧
      generateSkeleton (.str "<b>hi</b> \x7b\x7bname\x7d\x7d") ≠
        .str "<b> </b> \x7b\x7bname\x7d\x7d" := by
  have heval : generateSkeleton (.str "<b>hi</b> \x7b\x7bname\x7d\x7d") =
      .str "\x7b\x7bname\x7d\x7d <b> </b>" := by
    simp +decide [generateSkeleton, scanInterps, scanTags, String.intercalate,
      String.intercalate.go]
  refine ⟨heval, ?_⟩
  rw [heval]
  intro hcontra
  injection hcontra with h
  exact absurd h (by decide)

/-- Witness for `c4_skeleton_tokens_by_kind` at a concrete input. -/
theorem c4_witness :
    generateSkeleton
        (.str ("Hello " ++ "<" ++ "b" ++ ">" ++ ", " ++ "\x7b\x7b" ++ "name" ++ "\x7d\x7d" ++ "!")) =
      .str ("\x7b\x7b" ++ "name" ++ "\x7d\x7d" ++ " " ++ "<" ++ "b" ++ ">") :=
  c4_skeleton_tokens_by_kind "Hello " "b" ", " "name" "!"
    (by decide) (by decide) (by decide) (by decide) (by decide) (by decide) (by decide)

/-! ## Association-list lemmas -/

theorem objLookup_nil (k : String) : objLookup [] k = none := rfl

theorem objLookup_cons (k0 : String) (v0 : TValue) (rest : List (String × TValue)) (k : String) :
    objLookup ((k0, v0) :: rest) k = if k0 = k then some v0 else objLookup rest k := rfl

theorem objUpd_apply (k : String) (v : TValue) (k0 : String) (v0 : TValue) :
    objUpd k v (k0, v0) = if k0 = k then (k, v) else (k0, v0) := rfl

theorem objLookup_eq_none_iff (l : List (String × TValue)) (k : String) :
    objLookup l k = none ↔ k ∉ l.map Prod.fst := by
  induction l with
  | nil => simp [objLookup]
  | cons p rest ih =>
    obtain ⟨k0, v0⟩ := p
    by_cases hk : k0 = k
    · subst hk
      simp [objLookup_cons]
    · simp [objLookup_cons, hk, ih, Ne.symm hk]

theorem objAny_eq_false_iff (l : List (String × TValue)) (k : String) :
    l.any (fun p => p.1 == k) = false ↔ objLookup l k = none := by
  induction l with
  | nil => simp [objLookup]
  | cons p rest ih =>
    obtain ⟨k0, v0⟩ := p
    by_cases hk : k0 = k
    · subst hk
      simp [objLookup_cons]
    · simp [objLookup_cons, hk, ih]

theorem objSet_of_lookup_none (l : List (String × TValue)) (k : String) (v : TValue)
    (h : objLookup l k = none) : objSet l k v = l ++ [(k, v)] := by
  have hfalse : l.any (fun p => p.1 == k) = false := (objAny_eq_false_iff l k).mpr h
  simp [objSet, hfalse]

theorem objLookup_append (a b : List (String × TValue)) (k : String) :
    objLookup (a ++ b) k =
      match objLookup a k with
      | some v => some v
      | none => objLookup b k := by
  induction a with
  | nil => simp [objLookup]
  | cons p rest ih =>
    obtain ⟨k0, v0⟩ := p
    by_cases hk : k0 = k
    · subst hk
      simp [objLookup_cons]
    · simp [objLookup_cons, hk, ih]

theorem objLookup_map_ne (l : List (String × TValue)) (k k' : String) (v : TValue)
    (hne : k ≠ k') :
    objLookup (l.map (objUpd k v)) k' = objLookup l k' := by
  induction l with
  | nil => rfl
  | cons p rest ih =>
    obtain ⟨k0, v0⟩ := p
    by_cases hk0 : k0 = k
    · subst hk0
      simp [objLookup_cons, objUpd_apply, hne, ih]
    · simp [objLookup_cons, objUpd_apply, hk0, ih]

theorem objLookup_map_self (l : List (String × TValue)) (k : String) (v : TValue)
    (hmem : k ∈ l.map Prod.fst) :
    objLookup (l.map (objUpd k v)) k = some v := by
  induction l with
  | nil => simp at hmem
  | cons p rest ih =>
    obtain ⟨k0, v0⟩ := p
    by_cases hk0 : k0 = k
    · subst hk0
      simp [objLookup_cons, objUpd_apply]
    · have hmem' : k ∈ rest.map Prod.fst := by
        simp at hmem
        rcases hmem with h | h
        · exact absurd h.symm hk0
        · simpa using h
      simp [objLookup_cons, objUpd_apply, hk0, ih hmem']

theorem objLookup_objSet (l : List (String × TValue)) (k k' : String) (v : TValue) :
    objLookup (objSet l k v) k' = if k = k' then some v else objLookup l k' := by
  by_cases hany : l.any (fun p => p.1 == k) = true
  · have hset : objSet l k v = l.map (objUpd k v) := by simp [objSet, hany]
    rw [hset]
    by_cases hk : k = k'
    · subst hk
      rw [objLookup_map_self, if_pos rfl]
      by_contra hnotmem
      have hnone := (objLookup_eq_none_iff l k).mpr hnotmem
      have hfalse := (objAny_eq_false_iff l k).mpr hnone
      rw [hany] at hfalse
      exact absurd hfalse (by simp)
    · rw [objLookup_map_ne _ _ _ _ hk, if_neg hk]
  · have hnone : objLookup l k = none := by
      rw [← objAny_eq_false_iff]
      exact Bool.not_eq_true _ |>.mp hany
    rw [objSet_of_lookup_none _ _ _ hnone, objLookup_append]
    by_cases hk : k = k'
    · subst hk
      rw [hnone]
      simp [objLookup]
    · rw [if_neg hk]
      cases hlk : objLookup l k' with
      | some w => simp
      | none => simp [objLookup_cons, objLookup_nil, hk]

theorem objSet_keys (l : List (String × TValue)) (k : String) (v : TValue) :
    (objSet l k v).map Prod.fst =
      if (objLookup l k).isNone then l.map Prod.fst ++ [k] else l.map Prod.fst := by
  by_cases h : objLookup l k = none
  · rw [objSet_of_lookup_none _ _ _ h, h]
    simp
  · have hany : l.any (fun p => p.1 == k) = true := by
      cases hb : l.any (fun p => p.1 == k) with
      | true => rfl
      | false => exact absurd ((objAny_eq_false_iff l k).mp hb) h
    have hset : objSet l k v = l.map (objUpd k v) := by simp [objSet, hany]
    rw [hset]
    have hisNone : (objLookup l k).isNone = false := by
      cases ho : objLookup l k with
      | none => exact absurd ho h
      | some w => rfl
    rw [hisNone]
    simp only [if_false, List.map_map]
    apply List.map_congr_left
    intro p _
    obtain ⟨k0, v0⟩ := p
    by_cases hp : k0 = k
    · subst hp
      simp [objUpd_apply]
    · simp [objUpd_apply, hp]

/-! ## Unfolding equations for `mergeDeep` -/

theorem mergeDeep_none (strict : Bool) (s : TValue) : mergeDeep strict none s = s := by
  rw [mergeDeep]

theorem mergeDeep_mismatch (strict : Bool) (t s : TValue) (h : jsTypeof t ≠ jsTypeof s) :
    mergeDeep strict (some t) s = s := by
  rw [mergeDeep.eq_def]
  simp [h]

theorem mergeDeep_str_str (strict : Bool) (a b : String) :
    mergeDeep strict (some (.str a)) (.str b) = .str a := by
  rw [mergeDeep.eq_def]
  simp [jsTypeof]

theorem mergeDeep_num_num (strict : Bool) (a b : Int) :
    mergeDeep strict (some (.num a)) (.num b) = .num a := by
  rw [mergeDeep.eq_def]
  simp [jsTypeof]

theorem mergeDeep_bool_bool (strict : Bool) (a b : Bool) :
    mergeDeep strict (some (.bool a)) (.bool b) = .bool a := by
  rw [mergeDeep.eq_def]
  simp [jsTypeof]

theorem mergeDeep_arr_arr (strict : Bool) (ta sa : List TValue) :
    mergeDeep strict (some (.arr ta)) (.arr sa) = .arr (mergeDeepList strict ta sa) := by
  rw [mergeDeep.eq_def]
  simp [jsTypeof]

theorem mergeDeep_obj_obj (strict : Bool) (tl sl : List (String × TValue)) :
    mergeDeep strict (some (.obj tl)) (.obj sl) =
      .obj (mergeDeepEntries strict tl (if strict then [] else tl) sl) := by
  rw [mergeDeep.eq_def]
  simp [jsTypeof]

theorem mergeDeep_arr_obj (strict : Bool) (ta : List TValue) (sl : List (String × TValue)) :
    mergeDeep strict (some (.arr ta)) (.obj sl) =
      .obj (mergeDeepEntries strict (arrEntries ta)
        (if strict then [] else arrEntries ta) sl) := by
  rw [mergeDeep.eq_def]
  simp [jsTypeof]

theorem mergeDeep_obj_arr (strict : Bool) (tl : List (String × TValue)) (sa : List TValue) :
    mergeDeep strict (some (.obj tl)) (.arr sa) =
      .obj (mergeDeepArr strict tl (if strict then [] else tl) 0 sa) := by
  rw [mergeDeep.eq_def]
  simp [jsTypeof]

theorem mergeDeepList_nil (strict : Bool) (ta : List TValue) :
    mergeDeepList strict ta [] = [] := by
  rw [mergeDeepList]

theorem mergeDeepList_cons (strict : Bool) (ta : List TValue) (s : TValue) (sa : List TValue) :
    mergeDeepList strict ta (s :: sa) =
      mergeDeep strict ta.head? s :: mergeDeepList strict ta.tail sa := by
  rw [mergeDeepList]

theorem mergeDeepEntries_nil (strict : Bool) (tl acc : List (String × TValue)) :
    mergeDeepEntries strict tl acc [] = acc := by
  rw [mergeDeepEntries]

theorem mergeDeepEntries_cons (strict : Bool) (tl acc : List (String × TValue))
    (k : String) (v : TValue) (rest : List (String × TValue)) :
    mergeDeepEntries strict tl acc ((k, v) :: rest) =
      mergeDeepEntries strict tl
        (objSet acc k (mergeDeep strict (objLookup tl k) v)) rest := by
  rw [mergeDeepEntries]

theorem mergeDeepArr_nil (strict : Bool) (tl acc : List (String × TValue)) (i : Nat) :
    mergeDeepArr strict tl acc i [] = acc := by
  rw [mergeDeepArr]

theorem mergeDeepArr_cons (strict : Bool) (tl acc : List (String × TValue)) (i : Nat)
    (v : TValue) (rest : List TValue) :
    mergeDeepArr strict tl acc i (v :: rest) =
      mergeDeepArr strict tl
        (objSet acc (toString i) (mergeDeep strict (objLookup tl (toString i)) v))
        (i + 1) rest := by
  rw [mergeDeepArr]

/-! ## The object-branch loop: lookup and key characterizations -/

theorem mergeDeepEntries_lookup (strict : Bool) (tl : List (String × TValue)) :
    ∀ (sl acc : List (String × TValue)) (k : String), (sl.map Prod.fst).Nodup →
      objLookup (mergeDeepEntries strict tl acc sl) k =
        match objLookup sl k with
        | some sv => some (mergeDeep strict (objLookup tl k) sv)
        | none => objLookup acc k
  | [], acc, k, _ => by simp [mergeDeepEntries_nil, objLookup]
  | (k0, v0) :: rest, acc, k, hnd => by
    rw [List.map_cons, List.nodup_cons] at hnd
    rw [mergeDeepEntries_cons,
      mergeDeepEntries_lookup strict tl rest _ k hnd.2]
    by_cases hk : k0 = k
    · subst hk
      have hrest : objLookup rest k0 = none := (objLookup_eq_none_iff _ _).mpr hnd.1
      rw [objLookup_cons, if_pos rfl, hrest]
      simp [objLookup_objSet]
    · rw [objLookup_cons, if_neg hk]
      cases hr : objLookup rest k with
      | some sv => simp
      | none => simp [objLookup_objSet, hk]

theorem mergeDeepEntries_eq_append (strict : Bool) (tl : List (String × TValue)) :
    ∀ (sl acc : List (String × TValue)), (sl.map Prod.fst).Nodup →
      (∀ p ∈ sl, objLookup acc p.1 = none) →
      mergeDeepEntries strict tl acc sl =
        acc ++ sl.map (fun p => (p.1, mergeDeep strict (objLookup tl p.1) p.2))
  | [], acc, _, _ => by simp [mergeDeepEntries_nil]
  | (k0, v0) :: rest, acc, hnd, hdisj => by
    rw [List.map_cons, List.nodup_cons] at hnd
    have hacc0 : objLookup acc k0 = none := hdisj (k0, v0) (by simp)
    rw [mergeDeepEntries_cons, objSet_of_lookup_none _ _ _ hacc0,
      mergeDeepEntries_eq_append strict tl rest _ hnd.2 ?hdisj2]
    · simp
    case hdisj2 =>
      intro p hp
      have hne : k0 ≠ p.1 := by
        intro he
        exact hnd.1 (by rw [he]; exact List.mem_map.mpr ⟨p, hp, rfl⟩)
      rw [objLookup_append, hdisj p (List.mem_cons_of_mem _ hp)]
      simp [objLookup_cons, objLookup_nil, hne]

theorem mergeDeepEntries_keys (strict : Bool) (tl : List (String × TValue)) :
    ∀ (sl acc : List (String × TValue)), (sl.map Prod.fst).Nodup →
      (mergeDeepEntries strict tl acc sl).map Prod.fst =
        acc.map Prod.fst ++
          (sl.map Prod.fst).filter (fun k => (objLookup acc k).isNone)
  | [], acc, _ => by simp [mergeDeepEntries_nil]
  | (k0, v0) :: rest, acc, hnd => by
    rw [List.map_cons, List.nodup_cons] at hnd
    rw [mergeDeepEntries_cons, mergeDeepEntries_keys strict tl rest _ hnd.2, objSet_keys]
    have hfeq : (rest.map Prod.fst).filter
          (fun k => (objLookup (objSet acc k0
            (mergeDeep strict (objLookup tl k0) v0)) k).isNone)
        = (rest.map Prod.fst).filter (fun k => (objLookup acc k).isNone) := by
      apply List.filter_congr
      intro k hk
      have hkne : k0 ≠ k := fun he => hnd.1 (he ▸ hk)
      rw [objLookup_objSet, if_neg hkne]
    rw [hfeq]
    by_cases h0 : (objLookup acc k0).isNone
    · simp [h0, List.filter_cons]
    · simp [h0, List.filter_cons]

/-! ## C2: strict and soft object merge -/

/-- C2: merging two objects.  Under strict mode the result consists of exactly
the incoming object's entries, each recursively merged against the existing
value at the same key when present; under soft mode the result additionally
retains the keys present only in the existing object (value lookups follow the
incoming entry when present, the existing one otherwise; the key list is the
existing keys followed by the new incoming keys).  On the spec's example,
strict merge of incoming `(a=1, b=2)` into existing `(a=9, c=3)` gives
`(a=9, b=2)` and soft merge gives `(a=9, c=3, b=2)` (as a mapping,
`{a: 9, b: 2, c: 3}`). -/
theorem c2_mergeDeep_strict_soft (tl sl : List (String × TValue))
    (hnd : (sl.map Prod.fst).Nodup) :
    (mergeDeep true (some (.obj tl)) (.obj sl) =
        .obj (sl.map (fun p => (p.1, mergeDeep true (objLookup tl p.1) p.2)))) ∧
    (∀ k, objLookupT (mergeDeep false (some (.obj tl)) (.obj sl)) k =
        match objLookup sl k with
        | some sv => some (mergeDeep false (objLookup tl k) sv)
        | none => objLookup tl k) ∧
    (objKeysT (mergeDeep false (some (.obj tl)) (.obj sl)) =
        tl.map Prod.fst ++
          (sl.map Prod.fst).filter (fun k => (objLookup tl k).isNone)) ∧
    mergeDeep true (some (.obj [("a", .num 9), ("c", .num 3)]))
        (.obj [("a", .num 1), ("b", .num 2)]) =
      .obj [("a", .num 9), ("b", .num 2)] ∧
    mergeDeep false (some (.obj [("a", .num 9), ("c", .num 3)]))
        (.obj [("a", .num 1), ("b", .num 2)]) =
      .obj [("a", .num 9), ("c", .num 3), ("b", .num 2)] := by
  have hstrict : ∀ (tl' sl' : List (String × TValue)), (sl'.map Prod.fst).Nodup →
      mergeDeep true (some (.obj tl')) (.obj sl') =
        .obj (sl'.map (fun p => (p.1, mergeDeep true (objLookup tl' p.1) p.2))) := by
    intro tl' sl' hnd'
    rw [mergeDeep_obj_obj]
    show TValue.obj (mergeDeepEntries true tl' [] sl') = _
    rw [mergeDeepEntries_eq_append true tl' sl' [] hnd' (fun p _ => rfl)]
    simp
  have hsoft : ∀ (tl' sl' : List (String × TValue)), (sl'.map Prod.fst).Nodup →
      mergeDeep false (some (.obj tl')) (.obj sl') =
        .obj (mergeDeepEntries false tl' tl' sl') := by
    intro tl' sl' _
    rw [mergeDeep_obj_obj]
    rfl
  refine ⟨hstrict tl sl hnd, ?_, ?_, ?_, ?_⟩
  · intro k
    rw [hsoft tl sl hnd]
    show objLookup (mergeDeepEntries false tl tl sl) k = _
    rw [mergeDeepEntries_lookup false tl sl tl k hnd]
  · rw [hsoft tl sl hnd]
    show (mergeDeepEntries false tl tl sl).map Prod.fst = _
    rw [mergeDeepEntries_keys false tl sl tl hnd]
  · rw [hstrict _ _ (by decide)]
    simp [objLookup_cons, objLookup_nil, mergeDeep_num_num, mergeDeep_none]
  · rw [hsoft _ _ (by decide)]
    rw [mergeDeepEntries_cons, mergeDeepEntries_cons, mergeDeepEntries_nil]
    simp [objLookup_cons, objLookup_nil, mergeDeep_num_num, mergeDeep_none,
      objSet, objUpd]

/-- Witness for `c2_mergeDeep_strict_soft` at concrete objects. -/
theorem c2_witness :
    mergeDeep true (some (.obj [("a", .num 9), ("c", .num 3)]))
        (.obj [("a", .num 1), ("b", .num 2)]) =
      .obj [("a", .num 9), ("b", .num 2)] :=
  (c2_mergeDeep_strict_soft [("a", .num 9), ("c", .num 3)]
    [("a", .num 1), ("b", .num 2)] (by decide)).2.2.2.1

/-! ## C1: batch reassembly lemmas -/

theorem divEqIff (p bs b : Nat) (hbs : 0 < bs) :
    p / bs = b ↔ b * bs ≤ p ∧ p < b * bs + bs := by
  constructor
  · intro h
    subst h
    refine ⟨Nat.div_mul_le_self p bs, ?_⟩
    have h2 : p / bs < p / bs + 1 := Nat.lt_succ_self _
    have h3 := (Nat.div_lt_iff_lt_mul hbs).mp h2
    calc p < (p / bs + 1) * bs := h3
    _ = p / bs * bs + bs := by ring
  · rintro ⟨h1, h2⟩
    have hge : b ≤ p / bs := (Nat.le_div_iff_mul_le hbs).mpr h1
    have hlt : p / bs < b + 1 := (Nat.div_lt_iff_lt_mul hbs).mpr (by
      calc p < b * bs + bs := h2
      _ = (b + 1) * bs := by ring)
    omega

theorem modEqSub (p bs b : Nat) (h : p / bs = b) : p - b * bs = p % bs := by
  have hmd := Nat.mod_add_div p bs
  rw [h, Nat.mul_comm] at hmd
  generalize hq : b * bs = q at hmd ⊢
  omega

theorem slotFold (batchSize total : Nat) (hbs : 0 < batchSize) (lang : String)
    (ret : Nat → List String) (p : Nat) :
    ∀ (S : List Nat) (acc : Option String),
      (∀ b ∈ S, (ret b).length = min batchSize (total - b * batchSize)) →
      ((S.map (fun b => TBatch.mk b lang (ret b))).foldl
          (fun acc b =>
            if b.batchId * batchSize ≤ p ∧
                p < b.batchId * batchSize + b.strings.length ∧ p < total
            then b.strings.get? (p - b.batchId * batchSize)
            else acc) acc)
        = if p < total ∧ p / batchSize ∈ S then
            (ret (p / batchSize)).get? (p % batchSize)
          else acc
  | [], acc, _ => by simp
  | b :: S', acc, hlen => by
    rw [List.map_cons, List.foldl_cons,
      slotFold batchSize total hbs lang ret p S' _
        (fun b' hb' => hlen b' (List.mem_cons_of_mem _ hb'))]
    have hlb := hlen b (by simp)
    by_cases hmem : p < total ∧ p / batchSize ∈ S'
    · rw [if_pos hmem, if_pos ⟨hmem.1, List.mem_cons_of_mem _ hmem.2⟩]
    · rw [if_neg hmem]
      by_cases hcov : b * batchSize ≤ p ∧ p < b * batchSize + (ret b).length ∧ p < total
      · have hdiv : p / batchSize = b := by
          rw [divEqIff p batchSize b hbs]
          refine ⟨hcov.1, ?_⟩
          have h1 := hcov.2.1
          rw [hlb] at h1
          have h2 : min batchSize (total - b * batchSize) ≤ batchSize := Nat.min_le_left _ _
          omega
        rw [if_pos (show (TBatch.mk b lang (ret b)).batchId * batchSize ≤ p ∧
            p < (TBatch.mk b lang (ret b)).batchId * batchSize +
              (TBatch.mk b lang (ret b)).strings.length ∧ p < total from hcov)]
        rw [if_pos ⟨hcov.2.2, by rw [hdiv]; exact List.mem_cons_self _ _⟩]
        show (ret b).get? (p - b * batchSize) = _
        rw [hdiv, modEqSub p batchSize b hdiv]
      · rw [if_neg hcov, if_neg]
        intro hc
        rcases hc with ⟨hpt, hm⟩
        rcases List.mem_cons.mp hm with hb | hS'
        · apply hcov
          have hb' := (divEqIff p batchSize b hbs).mp hb
          refine ⟨hb'.1, ?_, hpt⟩
          rw [hlb]
          rcases Nat.le_total (total - b * batchSize) batchSize with hmin | hmin
          · rw [Nat.min_eq_right hmin]
            have : b * batchSize ≤ p := hb'.1
            omega
          · rw [Nat.min_eq_left hmin]
            exact hb'.2
        · exact hmem ⟨hpt, hS'⟩

theorem translatedSlot_canonical (batchSize total : Nat) (hbs : 0 < batchSize)
    (lang : String) (ret : Nat → List String) (S : List Nat) (p : Nat)
    (hlen : ∀ b ∈ S, (ret b).length = min batchSize (total - b * batchSize)) :
    translatedSlot batchSize total (S.map (fun b => TBatch.mk b lang (ret b))) p =
      if p < total ∧ p / batchSize ∈ S then
        (ret (p / batchSize)).get? (p % batchSize)
      else none :=
  slotFold batchSize total hbs lang ret p S none hlen

theorem itemOffset_add_le (items : List UItem) (i : Nat) (item : UItem)
    (hq : items[i]? = some item) :
    itemOffset items i + itemCount item ≤ totalCount items := by
  have hi : i < items.length := by
    by_contra hle
    rw [List.getElem?_eq_none (by omega)] at hq
    exact Option.noConfusion hq
  have hi2 : i < (List.map itemCount items).length := by simpa using hi
  have hcnt : (items.map itemCount)[i] = itemCount item := by
    rw [List.getElem_map]
    have := List.getElem?_eq_getElem hi
    rw [this] at hq
    injection hq with hq
    rw [hq]
  have hsplit : ((items.map itemCount).take i).sum + ((items.map itemCount).drop i).sum
      = (items.map itemCount).sum := by
    rw [← List.sum_append, List.take_append_drop]
  have hdrop : (items.map itemCount).drop i
      = (items.map itemCount)[i] :: (items.map itemCount).drop (i + 1) :=
    List.drop_eq_getElem_cons (by simpa using hi)
  rw [itemOffset, itemCount, totalCount] at *
  rw [hdrop] at hsplit
  simp only [List.sum_cons] at hsplit
  rw [hcnt] at hsplit
  omega

theorem allMap {α β : Type} (l : List α) (f : α → β) (p : β → Bool) :
    (l.map f).all p = l.all (fun a => p (f a)) := by
  induction l with
  | nil => rfl
  | cons x rest ih => simp [List.all_cons, ih]

theorem allCongr {α : Type} (f g : α → Bool) :
    ∀ xs : List α, (∀ x ∈ xs, f x = g x) → xs.all f = xs.all g
  | [], _ => rfl
  | x :: rest, h => by
    simp only [List.all_cons]
    rw [h x (by simp), allCongr f g rest (fun y hy => h y (by simp [hy]))]

theorem filterIfEqFilterMap {α β : Type} (l : List α) (p : α → Bool) (g : α → β) :
    (l.filter p).map g = l.filterMap (fun a => if p a then some (g a) else none) := by
  induction l with
  | nil => rfl
  | cons x rest ih =>
    by_cases hx : p x
    · simp [List.filter_cons, List.filterMap_cons, hx, ih]
    · simp [List.filter_cons, List.filterMap_cons, hx, ih]

/-- C1: after the settle-all dispatch, where each successful batch `b ∈ S`
returned `ret b` strings of exactly the dispatched batch length
(`min batchSize (total - b * batchSize)`, guaranteed by `callAI`'s length
check), the reassembly applies an untranslated item if and only if every
position `p` of its flattened-leaf range `[offset, offset + count)` lies in a
successful batch (`p / batchSize ∈ S`, the batch that wrote position
`batchId * batchSize + localIndex`); an applied item is rebuilt from the
returned strings at `ret (p / batchSize) [p % batchSize]`.  Consequently an
item spanning a failed batch is left unapplied and an item lying wholly
inside successful batches is applied regardless of other batches' failures.
The program instantiates `batchSize` with `BATCH_SIZE = 50` and `items` with
`collectUntranslated` (see `applyTranslationsModel`). -/
theorem c1_batch_reassembly (batchSize : Nat) (hbs : 0 < batchSize)
    (items : List UItem) (lang : String) (S : List Nat) (ret : Nat → List String)
    (hlen : ∀ b ∈ S, (ret b).length = min batchSize (totalCount items - b * batchSize)) :
    applyTranslationsCore batchSize items (S.map (fun b => TBatch.mk b lang (ret b))) =
      (items.enum.filter (fun q => (List.range (itemCount q.2)).all (fun j =>
          S.contains ((itemOffset items q.1 + j) / batchSize)))).map (fun q =>
        (q.2.ns, q.2.keyPath,
          (applyStrings q.2.defaultValue
            ((List.range (itemCount q.2)).map (fun j =>
              (ret ((itemOffset items q.1 + j) / batchSize)).getD
                ((itemOffset items q.1 + j) % batchSize) "")) 0).1)) := by
  rw [filterIfEqFilterMap]
  unfold applyTranslationsCore
  apply List.filterMap_congr
  intro q hq
  obtain ⟨i, item⟩ := q
  have hqi : items[i]? = some item := by
    simpa using (List.mem_enum_iff_getElem?).mp hq
  have hbound := itemOffset_add_le items i item hqi
  have hpt : ∀ j, j < itemCount item → itemOffset items i + j < totalCount items := by
    intro j hj
    omega
  have hslot : ∀ j, j < itemCount item →
      translatedSlot batchSize (totalCount items)
          (S.map (fun b => TBatch.mk b lang (ret b))) (itemOffset items i + j)
        = if S.contains ((itemOffset items i + j) / batchSize) then
            some ((ret ((itemOffset items i + j) / batchSize)).getD
              ((itemOffset items i + j) % batchSize) "")
          else none := by
    intro j hj
    rw [translatedSlot_canonical batchSize (totalCount items) hbs lang ret S _ hlen]
    by_cases hS : (itemOffset items i + j) / batchSize ∈ S
    · rw [if_pos ⟨hpt j hj, hS⟩, if_pos (by simpa using hS)]
      have hble := Nat.div_mul_le_self (itemOffset items i + j) batchSize
      have hmod2 := modEqSub (itemOffset items i + j) batchSize _ rfl
      have hmodlt : (itemOffset items i + j) % batchSize < batchSize :=
        Nat.mod_lt _ hbs
      have hpt' := hpt j hj
      have hidx : (itemOffset items i + j) % batchSize
          < (ret ((itemOffset items i + j) / batchSize)).length := by
        rw [hlen _ hS, Nat.lt_min]
        refine ⟨hmodlt, ?_⟩
        rw [← hmod2]
        generalize hg : (itemOffset items i + j) / batchSize * batchSize = g at hble ⊢
        omega
      rw [List.get?_eq_getElem?, List.getElem?_eq_getElem hidx,
        List.getD_eq_getElem?_getD, List.getElem?_eq_getElem hidx]
      rfl
    · rw [if_neg (fun hc => hS hc.2), if_neg (by simpa using hS)]
  have hcond : (sliceSlots batchSize (totalCount items)
        (S.map (fun b => TBatch.mk b lang (ret b)))
        (itemOffset items i) (itemCount item)).all (fun o => o.isSome)
      = (List.range (itemCount item)).all (fun j =>
          S.contains ((itemOffset items i + j) / batchSize)) := by
    unfold sliceSlots
    rw [allMap]
    apply allCongr
    intro j hj
    have hjlt : j < itemCount item := List.mem_range.mp hj
    show (translatedSlot _ _ _ _).isSome = _
    rw [hslot j hjlt]
    by_cases hS : S.contains ((itemOffset items i + j) / batchSize)
    · rw [if_pos hS, hS]
      rfl
    · rw [if_neg hS, Bool.not_eq_true _ |>.mp hS]
      rfl
  show (if _ then _ else _) = (if _ then _ else _)
  rw [hcond]
  by_cases happ : (List.range (itemCount item)).all (fun j =>
      S.contains ((itemOffset items i + j) / batchSize))
  · rw [if_pos happ, if_pos happ]
    have hvals : (sliceSlots batchSize (totalCount items)
          (S.map (fun b => TBatch.mk b lang (ret b)))
          (itemOffset items i) (itemCount item)).map (fun o => o.getD "")
        = (List.range (itemCount item)).map (fun j =>
            (ret ((itemOffset items i + j) / batchSize)).getD
              ((itemOffset items i + j) % batchSize) "") := by
      unfold sliceSlots
      rw [List.map_map]
      apply List.map_congr_left
      intro j hj
      have hjlt : j < itemCount item := List.mem_range.mp hj
      show (translatedSlot _ _ _ _).getD "" = _
      rw [hslot j hjlt]
      have hS := List.all_eq_true.mp happ j hj
      rw [if_pos hS]
      rfl
    rw [hvals]
  · rw [if_neg happ, if_neg happ]

/-- Witness for `c1_batch_reassembly`: the spec's partial-failure example —
two items needing 1 and 2 leaf strings, batch size 2, batch 0 succeeded and
batch 1 failed: only the first item (wholly inside batch 0) is applied. -/
theorem c1_witness :
    applyTranslationsCore 2 [⟨"ns", "a", .str "x"⟩, ⟨"ns", "b", .arr [.str "y", .str "z"]⟩]
        ([0].map (fun b => TBatch.mk b "tr" ([["X", "Y"], ["Z"]].getD b []))) =
      [("ns", "a", .str "X")] := by
  have h := c1_batch_reassembly 2 (by decide)
    [⟨"ns", "a", .str "x"⟩, ⟨"ns", "b", .arr [.str "y", .str "z"]⟩] "tr" [0]
    (fun b => [["X", "Y"], ["Z"]].getD b []) (by decide)
  rw [h]
  rfl

/-! ## C7: non-string leaves and the translation machinery -/

mutual

theorem eraseApply : ∀ (v : TValue) (strings : List String) (i : Nat),
    eraseStrings (applyStrings v strings i).1 = eraseStrings v
  | .str s, strings, i => by simp [applyStrings, eraseStrings]
  | .num n, _, _ => rfl
  | .bool b, _, _ => rfl
  | .arr l, strings, i => by
    simp only [applyStrings, eraseStrings]
    rw [eraseApplyList l strings i]
  | .obj l, strings, i => by
    simp only [applyStrings, eraseStrings]
    rw [eraseApplyEntries l strings i]

theorem eraseApplyList : ∀ (l : List TValue) (strings : List String) (i : Nat),
    eraseStringsList (applyStringsList l strings i).1 = eraseStringsList l
  | [], _, _ => rfl
  | v :: rest, strings, i => by
    simp only [applyStringsList, eraseStringsList]
    rw [eraseApply v strings i, eraseApplyList rest strings _]

theorem eraseApplyEntries : ∀ (l : List (String × TValue)) (strings : List String) (i : Nat),
    eraseStringsEntries (applyStringsEntries l strings i).1 = eraseStringsEntries l
  | [], _, _ => rfl
  | (k, v) :: rest, strings, i => by
    simp only [applyStringsEntries, eraseStringsEntries]
    rw [eraseApply v strings i, eraseApplyEntries rest strings _]

end

/-- C7 (amended): number and boolean leaves are never translated — batch
flattening collects nothing from them, batch application rewrites only string
leaves (values agree after blanking all string leaves), a same-type primitive
merge keeps the existing leaf, and a value merged against an absent target is
written verbatim (so with the configured `fillEmptyWithSource = true` a newly
extracted numeric or boolean leaf lands identically in every language's
document).  Skeleton generation, however, maps them to `""` (see the
counterexample), so they do not pass through that operation unchanged. -/
theorem c7_nonstring_leaves (v : TValue) (strings : List String) (i : Nat)
    (strict : Bool) (a b : Int) (x y : Bool) (d : TValue) :
    eraseStrings (applyStrings v strings i).1 = eraseStrings v ∧
    flattenStrings (.num a) = [] ∧
    flattenStrings (.bool x) = [] ∧
    mergeDeep strict (some (.num a)) (.num b) = .num a ∧
    mergeDeep strict (some (.bool x)) (.bool y) = .bool x ∧
    mergeDeep strict none d = d :=
  ⟨eraseApply v strings i, rfl, rfl, mergeDeep_num_num strict a b,
    mergeDeep_bool_bool strict x y, mergeDeep_none strict d⟩

/-- C7 counterexample: skeleton generation does not pass a numeric leaf
through unchanged — it replaces it with the empty string. -/
theorem c7_counterexample :
    generateSkeleton (.num 5) = .str "" ∧ TValue.str "" ≠ TValue.num 5 :=
  ⟨rfl, fun h => TValue.noConfusion h⟩

/-! ## C8 and C10: extraction acceptance conditions -/

theorem filterMapNeNil {α β : Type} (l : List α) (f : α → Option β)
    (h : l.filterMap f ≠ []) : ∃ a ∈ l, (f a).isSome := by
  induction l with
  | nil => exact absurd rfl h
  | cons x rest ih =>
    rw [List.filterMap_cons] at h
    cases hx : f x with
    | some b => exact ⟨x, by simp, by rw [hx]; rfl⟩
    | none =>
      rw [hx] at h
      obtain ⟨a, ha, hfa⟩ := ih h
      exact ⟨a, by simp [ha], hfa⟩

/-- C8 (amended): `getNodeValue` yields no value exactly for a top-level
unsupported expression form or an identifier that does not resolve in the
file-level constant scope.  Literals always evaluate, and array/object
literals are ALWAYS accepted — an unsupported or unresolvable sub-expression
is silently dropped from the container (array elements are filtered out,
object properties skipped) rather than making the container yield no
extraction. -/
theorem c8_getNodeValue_none_iff (scope : List (String × TValue)) (n : Node) :
    getNodeValue scope n = none ↔
      n = .other ∨ ∃ x, n = .ident x ∧ objLookup scope x = none := by
  cases n <;> simp [getNodeValue]

/-- C8 counterexample: an array literal containing an unsupported
sub-expression still produces a value (the bad element is dropped), and such a
default still produces an extraction — refuting "a container with an
unsupported sub-expression yields no extraction". -/
theorem c8_counterexample :
    getNodeValue [] (.arrayLit [.strLit "a", .other, .strLit "b"])
        = some (.arr [.str "a", .str "b"]) ∧
      getNodeValue [] (.arrayLit [.strLit "a", .other, .strLit "b"]) ≠ none ∧
      processTranslationCall [] "translation"
          ⟨.ident "t", [.strLit "k", .objectLit
            [(.identKey "defaultValue", .arrayLit [.strLit "a", .other, .strLit "b"])]]⟩
        = [("translation:k", ⟨"translation", "k", .arr [.str "a", .str "b"]⟩)] := by
  have heval : getNodeValue [] (.arrayLit [.strLit "a", .other, .strLit "b"])
      = some (.arr [.str "a", .str "b"]) := rfl
  refine ⟨heval, ?_, rfl⟩
  rw [heval]
  intro h
  exact Option.noConfusion h

/-- Witness for `c8_getNodeValue_none_iff`'s hypotheses — it has none, but the
iff is exercised at a concrete unresolvable identifier. -/
theorem c8_witness :
    getNodeValue [("a", .num 1)] (.ident "b") = none :=
  (c8_getNodeValue_none_iff [("a", .num 1)] (.ident "b")).mpr
    (Or.inr ⟨"b", rfl, rfl⟩)

/-- C10: a `t(...)` call yields an extraction only when the callee is the bare
identifier `t`, there are at least two arguments, the first is a string
literal, and the second is an object literal containing a property assignment
whose identifier name starts with `defaultValue`; in particular `t("key")`
with no options argument, or a call whose key argument is not a string
literal, never extracts. -/
theorem c10_call_conditions (scope : List (String × TValue)) (ans : String)
    (call : CallExpr) (h : processTranslationCall scope ans call ≠ []) :
    (call.callee = .ident "t" ∧
      2 ≤ call.args.length ∧
      (∃ s, call.args.get? 0 = some (.strLit s)) ∧
      (∃ props, call.args.get? 1 = some (.objectLit props) ∧
        ∃ p ∈ props, ∃ name, p.1 = .identKey name ∧
          strStartsWith name "defaultValue" = true)) ∧
    (∀ k, processTranslationCall scope ans ⟨.ident "t", [.strLit k]⟩ = []) ∧
    (∀ k1 rest, (∀ s, k1 ≠ Node.strLit s) →
      processTranslationCall scope ans ⟨.ident "t", k1 :: rest⟩ = []) := by
  refine ⟨?_, fun k => rfl, ?_⟩
  · rcases call with ⟨callee, args⟩
    cases callee <;> try exact absurd rfl h
    rename_i callName
    by_cases hn : callName = "t"
    · subst hn
      cases args with
      | nil => exact absurd rfl h
      | cons a args' =>
        cases args' with
        | nil =>
          cases a <;> exact absurd rfl h
        | cons b rest =>
          cases a <;> try (cases b <;> exact absurd rfl h)
          rename_i s
          cases b <;> try exact absurd rfl h
          rename_i props
          refine ⟨rfl, by simp, ⟨s, rfl⟩, ⟨props, rfl, ?_⟩⟩
          have hne : props.filterMap _ ≠ [] := h
          obtain ⟨p, hp, hsome⟩ := filterMapNeNil props _ hne
          refine ⟨p, hp, ?_⟩
          rcases p with ⟨pk, pinit⟩
          cases pk with
          | identKey name =>
            refine ⟨name, rfl, ?_⟩
            by_contra hsw
            simp only [Bool.not_eq_true] at hsw
            simp [hsw] at hsome
          | strKey name => simp at hsome
          | otherKey => simp at hsome
    · simp only [processTranslationCall, if_neg hn] at h
      exact absurd rfl h
  · intro k1 rest hk1
    cases k1 with
    | strLit s => exact absurd rfl (hk1 s)
    | numLit n => cases rest <;> rfl
    | trueKw => cases rest <;> rfl
    | falseKw => cases rest <;> rfl
    | ident x => cases rest <;> rfl
    | arrayLit l => cases rest <;> rfl
    | objectLit l => cases rest <;> rfl
    | other => cases rest <;> rfl

/-- Witness for `c10_call_conditions` at a concrete extracting call. -/
theorem c10_witness :
    (CallExpr.mk (.ident "t") [.strLit "k",
        .objectLit [(.identKey "defaultValue", .strLit "v")]]).callee = .ident "t" ∧
      2 ≤ (CallExpr.mk (.ident "t") [.strLit "k",
        .objectLit [(.identKey "defaultValue", .strLit "v")]]).args.length := by
  have hres : processTranslationCall [] "translation"
      ⟨.ident "t", [.strLit "k", .objectLit [(.identKey "defaultValue", .strLit "v")]]⟩
      = [("translation:k", ⟨"translation", "k", .str "v"⟩)] := rfl
  have h := c10_call_conditions [] "translation"
    ⟨.ident "t", [.strLit "k", .objectLit [(.identKey "defaultValue", .strLit "v")]]⟩
    (by rw [hres]; exact fun hc => List.noConfusion hc)
  exact ⟨h.1.1, h.1.2.1⟩

/-! ## C9: status percentage lemmas -/

theorem dedupFirstAux_mem (x : String) :
    ∀ (l seen : List String), x ∈ dedupFirstAux seen l ↔ x ∈ l ∧ x ∉ seen
  | [], seen => by simp [dedupFirstAux]
  | y :: rest, seen => by
    by_cases hy : seen.contains y
    · have hyseen : y ∈ seen := by simpa using hy
      rw [dedupFirstAux, if_pos hy, dedupFirstAux_mem x rest seen]
      simp only [List.mem_cons]
      constructor
      · rintro ⟨h1, h2⟩
        exact ⟨Or.inr h1, h2⟩
      · rintro ⟨h1 | h1, h2⟩
        · subst h1
          exact absurd hyseen h2
        · exact ⟨h1, h2⟩
    · have hyseen : y ∉ seen := by simpa using hy
      rw [dedupFirstAux, if_neg hy]
      simp only [List.mem_cons, dedupFirstAux_mem x rest (y :: seen), not_or]
      constructor
      · rintro (h | ⟨h1, h2⟩)
        · subst h
          exact ⟨Or.inl rfl, hyseen⟩
        · exact ⟨Or.inr h1, h2.2⟩
      · rintro ⟨h1 | h1, h2⟩
        · exact Or.inl h1
        · by_cases hxy : x = y
          · exact Or.inl hxy
          · exact Or.inr ⟨h1, hxy, h2⟩

theorem dedupFirstAux_nodup : ∀ (l seen : List String), (dedupFirstAux seen l).Nodup
  | [], _ => List.nodup_nil
  | y :: rest, seen => by
    by_cases hy : seen.contains y
    · rw [dedupFirstAux, if_pos hy]
      exact dedupFirstAux_nodup rest seen
    · rw [dedupFirstAux, if_neg hy]
      refine List.nodup_cons.mpr ⟨?_, dedupFirstAux_nodup rest (y :: seen)⟩
      rw [dedupFirstAux_mem]
      rintro ⟨_, h2⟩
      exact h2 (by simp)

theorem dedupFirst_mem (x : String) (l : List String) : x ∈ dedupFirst l ↔ x ∈ l := by
  rw [dedupFirst, dedupFirstAux_mem]
  simp

theorem dedupFirst_nodup (l : List String) : (dedupFirst l).Nodup :=
  dedupFirstAux_nodup l []

theorem dropWhileHeadNot (p : Char → Bool) : ∀ (l : List Char) (c : Char) (t : List Char),
    l.dropWhile p = c :: t → p c = false
  | [], c, t, h => by simp [List.dropWhile] at h
  | x :: rest, c, t, h => by
    by_cases hx : p x
    · rw [List.dropWhile_cons, if_pos hx] at h
      exact dropWhileHeadNot p rest c t h
    · rw [List.dropWhile_cons, if_neg hx] at h
      injection h with h1 _
      subst h1
      simpa using hx

theorem isPrefixOfIff : ∀ (a b : List Char), a.isPrefixOf b = true ↔ ∃ t, b = a ++ t
  | [], b => by simp [List.isPrefixOf]
  | x :: a', [] => by simp [List.isPrefixOf]
  | x :: a', y :: b' => by
    simp only [List.isPrefixOf, Bool.and_eq_true, beq_iff_eq, isPrefixOfIff a' b']
    constructor
    · rintro ⟨h1, t, h2⟩
      subst h1
      subst h2
      exact ⟨t, rfl⟩
    · rintro ⟨t, h⟩
      injection h with h1 h2
      exact ⟨h1.symm, t, h2⟩

theorem nsOf_colonFree (k : String) : ∀ c ∈ (nsOf k).data, c ≠ ':' := by
  intro c hc
  have := List.mem_takeWhile_imp (p := fun c => decide (c ≠ ':')) (by simpa [nsOf] using hc)
  simpa using this

theorem startsWithNsIff (k ns : String) (hns : ∀ c ∈ ns.data, c ≠ ':')
    (hk : ':' ∈ k.data) : strStartsWith k (ns ++ ":") = true ↔ nsOf k = ns := by
  have hdata : (ns ++ ":").data = ns.data ++ [':'] := by simp
  rw [strStartsWith, hdata, isPrefixOfIff]
  constructor
  · rintro ⟨t, ht⟩
    have hspan := spanSplit (fun c => decide (c ≠ ':')) ns.data (':' :: t)
      (fun c hc => by simpa using hns c hc) (fun c hc => by simp at hc; subst hc; simp)
    rw [nsOf]
    have hkd : k.data = ns.data ++ ':' :: t := by simpa using ht
    rw [hkd, hspan.1]
  · intro h
    have hsplit : k.data.takeWhile (fun c => decide (c ≠ ':')) ++
        k.data.dropWhile (fun c => decide (c ≠ ':')) = k.data :=
      List.takeWhile_append_dropWhile _ _
    have htw : k.data.takeWhile (fun c => decide (c ≠ ':')) = ns.data := by
      have := congrArg String.data h
      simpa [nsOf] using this
    have hdw : k.data.dropWhile (fun c => decide (c ≠ ':')) ≠ [] := by
      intro hnil
      rw [List.dropWhile_eq_nil_iff] at hnil
      have := hnil ':' hk
      simp at this
    obtain ⟨c, t, hct⟩ := List.exists_cons_of_ne_nil hdw
    have hcz : c = ':' := by
      have := dropWhileHeadNot (fun c => decide (c ≠ ':')) k.data c t hct
      simpa using this
    refine ⟨t, ?_⟩
    rw [← hsplit, htw, hct, hcz]
    simp

theorem countPDisjoint (l : List (String × HashEntry)) (p q : (String × HashEntry) → Bool)
    (hdis : ∀ a ∈ l, ¬(p a = true ∧ q a = true)) :
    l.countP (fun a => p a || q a) = l.countP p + l.countP q := by
  induction l with
  | nil => rfl
  | cons x rest ih =>
    have ih' := ih (fun a ha => hdis a (List.mem_cons_of_mem _ ha))
    have hx := hdis x (by simp)
    by_cases hp : p x
    · have hq : q x = false := by
        cases hq2 : q x with
        | true => exact absurd ⟨hp, hq2⟩ hx
        | false => rfl
      simp [List.countP_cons, hp, hq, ih']
      omega
    · simp only [Bool.not_eq_true] at hp
      by_cases hq : q x
      · simp [List.countP_cons, hp, hq, ih']
        omega
      · simp only [Bool.not_eq_true] at hq
        simp [List.countP_cons, hp, hq, ih']

theorem sumCountPartition (hashes : List (String × HashEntry))
    (g : (String × HashEntry) → Bool) (hcolon : ∀ p ∈ hashes, ':' ∈ p.1.data) :
    ∀ (nss : List String), nss.Nodup → (∀ ns ∈ nss, ∀ c ∈ ns.data, c ≠ ':') →
      (nss.map (fun ns =>
        (hashes.filter (fun p => strStartsWith p.1 (ns ++ ":"))).countP g)).sum
        = hashes.countP (fun p => nss.contains (nsOf p.1) && g p)
  | [], _, _ => by
    simp [List.countP_eq_zero]
  | ns :: rest, hnd, hfree => by
    rw [List.map_cons, List.sum_cons,
      sumCountPartition hashes g hcolon rest (List.nodup_cons.mp hnd).2
        (fun n hn => hfree n (List.mem_cons_of_mem _ hn))]
    rw [List.countP_filter]
    have hcongr1 : hashes.countP (fun p => g p && strStartsWith p.1 (ns ++ ":"))
        = hashes.countP (fun p => decide (nsOf p.1 = ns) && g p) := by
      apply List.countP_congr
      intro p hp
      constructor
      · intro h
        rw [Bool.and_eq_true] at h
        rw [Bool.and_eq_true]
        refine ⟨?_, h.1⟩
        have := (startsWithNsIff p.1 ns (hfree ns (by simp)) (hcolon p hp)).mp h.2
        simpa using this
      · intro h
        rw [Bool.and_eq_true] at h
        rw [Bool.and_eq_true]
        refine ⟨h.2, ?_⟩
        exact (startsWithNsIff p.1 ns (hfree ns (by simp)) (hcolon p hp)).mpr
          (by simpa using h.1)
    rw [hcongr1]
    have hdisj : ∀ a ∈ hashes,
        ¬((decide (nsOf a.1 = ns) && g a) = true ∧ (rest.contains (nsOf a.1) && g a) = true) := by
      rintro a _ ⟨h1, h2⟩
      rw [Bool.and_eq_true] at h1 h2
      have hns1 : nsOf a.1 = ns := by simpa using h1.1
      have hns2 : nsOf a.1 ∈ rest := by simpa using h2.1
      rw [hns1] at hns2
      exact (List.nodup_cons.mp hnd).1 hns2
    rw [← countPDisjoint hashes _ _ hdisj]
    apply List.countP_congr
    intro p _
    by_cases hg : g p
    · simp [hg]
    · simp only [Bool.not_eq_true] at hg
      simp [hg]

theorem keyUnique (l : List (String × HashEntry)) (k : String) (e e' : HashEntry)
    (hnd : (l.map Prod.fst).Nodup) (h1 : (k, e) ∈ l) (h2 : (k, e') ∈ l) : e = e' := by
  induction l with
  | nil => cases h1
  | cons x rest ih =>
    rw [List.map_cons, List.nodup_cons] at hnd
    rcases List.mem_cons.mp h1 with hx1 | hx1 <;> rcases List.mem_cons.mp h2 with hx2 | hx2
    · rw [← hx1] at hx2
      injection hx2 with _ he
      exact he.symm
    · exact absurd (by rw [← hx1]; exact List.mem_map.mpr ⟨(k, e'), hx2, rfl⟩) hnd.1
    · exact absurd (by rw [← hx2]; exact List.mem_map.mpr ⟨(k, e), hx1, rfl⟩) hnd.1
    · exact ih hnd.2 hx1 hx2

theorem countPSwap (l : List (String × HashEntry)) (p1 p2 : (String × HashEntry) → Bool)
    (k : String) (e : HashEntry) (hmem : (k, e) ∈ l)
    (hnd : (l.map Prod.fst).Nodup)
    (h1 : p1 (k, e) = false) (h2 : p2 (k, e) = true)
    (hsame : ∀ q ∈ l, q.1 ≠ k → p2 q = p1 q) :
    l.countP p2 = l.countP p1 + 1 := by
  induction l with
  | nil => cases hmem
  | cons x rest ih =>
    rw [List.map_cons, List.nodup_cons] at hnd
    rcases List.mem_cons.mp hmem with hx | hx
    · subst hx
      have hagree : ∀ q ∈ rest, p2 q = p1 q := by
        intro q hq
        apply hsame q (List.mem_cons_of_mem _ hq)
        intro hq1
        exact hnd.1 (by rw [← hq1]; exact List.mem_map.mpr ⟨q, hq, rfl⟩)
      have hcount : rest.countP p2 = rest.countP p1 := by
        apply List.countP_congr
        intro q hq
        rw [hagree q hq]
      simp [List.countP_cons, h1, h2, hcount]
    · have hxk : x.1 ≠ k := by
        intro hxe
        obtain ⟨xk, xe⟩ := x
        simp only at hxe
        subst hxe
        have he := keyUnique ((xk, xe) :: rest) xk xe e
          (by rw [List.map_cons, List.nodup_cons]; exact hnd) (by simp) hmem
        subst he
        exact hnd.1 (List.mem_map.mpr ⟨(xk, xe), hx, rfl⟩)
      have hstep := hsame x (by simp) hxk
      have ihres := ih hx hnd.2 (fun q hq hqk => hsame q (List.mem_cons_of_mem _ hq) hqk)
      by_cases hpx : p1 x
      · simp [List.countP_cons, hpx, hstep, ihres]
      · simp only [Bool.not_eq_true] at hpx
        simp [List.countP_cons, hpx, hstep, ihres]

theorem statusCountFlat (hashes : List (String × HashEntry))
    (docs : String → List (String × TValue)) (hcolon : ∀ p ∈ hashes, ':' ∈ p.1.data) :
    statusCount hashes docs
      = hashes.countP (fun p => isTranslated (statusValueAt docs p.1) p.2.defaultValue) := by
  rw [statusCount, sumCountPartition hashes _ hcolon (dedupFirst (hashes.map (fun p => nsOf p.1)))
    (dedupFirst_nodup _) ?hfree]
  · apply List.countP_congr
    intro p hp
    have hmem : nsOf p.1 ∈ dedupFirst (hashes.map (fun q => nsOf q.1)) := by
      rw [dedupFirst_mem]
      exact List.mem_map.mpr ⟨p, hp, rfl⟩
    simp [hmem]
  case hfree =>
    intro ns hns
    rw [dedupFirst_mem] at hns
    obtain ⟨q, _, hq⟩ := List.mem_map.mp hns
    rw [← hq]
    exact nsOf_colonFree q.1

theorem jsRoundPctMono (t t' n : Nat) (h : t ≤ t') : jsRoundPct t n ≤ jsRoundPct t' n :=
  Nat.div_le_div_right (by omega)

theorem jsRoundPctStrictStep (t n : Nat) (hn : 0 < n) (h100 : n ≤ 100) :
    jsRoundPct t n < jsRoundPct (t + 1) n := by
  unfold jsRoundPct
  have h1 : 200 * t + n + 2 * n ≤ 200 * (t + 1) + n := by omega
  calc (200 * t + n) / (2 * n) < (200 * t + n) / (2 * n) + 1 := Nat.lt_succ_self _
  _ = (200 * t + n + 2 * n) / (2 * n) := (Nat.add_div_right _ (by omega)).symm
  _ ≤ (200 * (t + 1) + n) / (2 * n) := Nat.div_le_div_right h1

/-- C9 (amended): translating a previously-untranslated key never decreases
the reported percentage, and strictly increases it whenever the total tracked
key count is at most 100; with more than 100 keys the rounded percentage can
stay unchanged (see the counterexample). -/
theorem c9_status_monotonicity (hashes : List (String × HashEntry))
    (docs1 docs2 : String → List (String × TValue)) (k : String) (e : HashEntry)
    (hmem : (k, e) ∈ hashes)
    (hnd : (hashes.map Prod.fst).Nodup)
    (hcolon : ∀ p ∈ hashes, ':' ∈ p.1.data)
    (huntr : isTranslated (statusValueAt docs1 k) e.defaultValue = false)
    (htr : isTranslated (statusValueAt docs2 k) e.defaultValue = true)
    (hsame : ∀ p ∈ hashes, p.1 ≠ k →
      isTranslated (statusValueAt docs2 p.1) p.2.defaultValue
        = isTranslated (statusValueAt docs1 p.1) p.2.defaultValue) :
    statusPercentage hashes docs1 ≤ statusPercentage hashes docs2 ∧
    (hashes.length ≤ 100 →
      statusPercentage hashes docs1 < statusPercentage hashes docs2) := by
  have hcount : statusCount hashes docs2 = statusCount hashes docs1 + 1 := by
    rw [statusCountFlat hashes docs1 hcolon, statusCountFlat hashes docs2 hcolon]
    exact countPSwap hashes _ _ k e hmem hnd huntr htr
      (fun q hq hqk => hsame q hq hqk)
  constructor
  · unfold statusPercentage
    rw [hcount]
    exact jsRoundPctMono _ _ _ (Nat.le_succ _)
  · intro h100
    have hn : 0 < hashes.length := List.length_pos.mpr (List.ne_nil_of_mem hmem)
    unfold statusPercentage
    rw [hcount]
    exact jsRoundPctStrictStep _ _ hn h100

set_option maxRecDepth 100000 in
/-- C9 counterexample: with 200 tracked keys, going from 1 to 2 translated
keys — exactly one previously-untranslated key (`n:aa`) becomes translated,
every other key's classification unchanged — leaves the reported percentage
at 1% on both runs: the percentage does not strictly increase. -/
theorem c9_counterexample :
    statusCount c9exHashes c9exDoc1 = 1 ∧
    statusCount c9exHashes c9exDoc2 = 2 ∧
    isTranslated (statusValueAt c9exDoc1 "n:aa") (.bool true) = false ∧
    isTranslated (statusValueAt c9exDoc2 "n:aa") (.bool true) = true ∧
    (∀ p ∈ c9exHashes, p.1 ≠ "n:aa" →
      isTranslated (statusValueAt c9exDoc2 p.1) p.2.defaultValue
        = isTranslated (statusValueAt c9exDoc1 p.1) p.2.defaultValue) ∧
    statusPercentage c9exHashes c9exDoc1 = 1 ∧
    statusPercentage c9exHashes c9exDoc2 = 1 := by
  refine ⟨?_, ?_, ?_, ?_, ?_, ?_, ?_⟩ <;> decide

/-- Witness for `c9_status_monotonicity` on a 2-key snapshot. -/
theorem c9_witness :
    statusPercentage [("n:a", ⟨"h", .bool true⟩), ("n:b", ⟨"h", .bool true⟩)]
        (fun _ => []) ≤
      statusPercentage [("n:a", ⟨"h", .bool true⟩), ("n:b", ⟨"h", .bool true⟩)]
        (fun ns => if ns = "n" then [("a", .bool true)] else []) ∧
    ([("n:a", (⟨"h", .bool true⟩ : HashEntry)), ("n:b", ⟨"h", .bool true⟩)].length ≤ 100 →
      statusPercentage [("n:a", ⟨"h", .bool true⟩), ("n:b", ⟨"h", .bool true⟩)]
          (fun _ => []) <
        statusPercentage [("n:a", ⟨"h", .bool true⟩), ("n:b", ⟨"h", .bool true⟩)]
          (fun ns => if ns = "n" then [("a", .bool true)] else [])) :=
  c9_status_monotonicity
    [("n:a", ⟨"h", .bool true⟩), ("n:b", ⟨"h", .bool true⟩)]
    (fun _ => []) (fun ns => if ns = "n" then [("a", .bool true)] else [])
    "n:a" ⟨"h", .bool true⟩
    (List.mem_cons_self _ _) (by decide) (by decide) (by decide) (by decide)
    (by decide)

/-! ## C5: missing credential -/

/-- A one-key snapshot with an untranslated entry, used to exercise the
translate command concretely. -/
def c5exHashes : List (String × HashEntry) := [("n:a", ⟨"h1", .str "Hi"⟩)]

/-- Empty documents for every language and namespace. -/
def c5exDocs : String → String → List (String × TValue) := fun _ _ => []

/-- A translation service that would succeed on any batch (echoing the
strings), to show the missing-credential outcome is independent of it. -/
def c5exService : String → List String → Except String (List String) :=
  fun _ ss => .ok ss

/-- C5 counterexample: with one untranslated key and the API key missing,
`translate` completes normally under settle-all semantics — one batch is
built, one batch is reported failed, nothing is applied — rather than
aborting with a whole-command fatal error, even though the underlying
service would have succeeded on the batch. -/
theorem c5_counterexample :
    translateModel 50 none c5exService c5exHashes c5exDocs ["tr"]
      = ⟨1, 1, []⟩ := rfl

/-- C5: when the API key is missing, every batch's `callAI` fails with the
credential error before the external service is consulted (the outcome is
the same for every service oracle), and the translate command completes
under settle-all semantics with every built batch counted as failed and no
translations applied to any language. -/
theorem c5_missing_credential (batchSize : Nat)
    (service : String → List String → Except String (List String))
    (hashes : List (String × HashEntry))
    (docsOf : String → String → List (String × TValue))
    (targetLangs : List String) :
    (∀ (b : TBatch) (svc : List String → Except String (List String)),
        callAIModel none svc b = .error "ANTHROPIC_API_KEY is not set") ∧
    (translateModel batchSize none service hashes docsOf targetLangs).failedCount
      = (translateModel batchSize none service hashes docsOf targetLangs).batchesBuilt ∧
    (translateModel batchSize none service hashes docsOf targetLangs).appliedPerLang
      = [] := by
  refine ⟨fun b svc => rfl, ?_⟩
  unfold translateModel
  by_cases h1 : hashes.length = 0
  · rw [if_pos h1]; exact ⟨rfl, rfl⟩
  rw [if_neg h1]
  by_cases h2 : targetLangs.length = 0
  · rw [if_pos h2]; exact ⟨rfl, rfl⟩
  rw [if_neg h2]
  simp only []
  constructor
  · have hall : ∀ r ∈ (buildBatches batchSize hashes docsOf targetLangs).map
        (fun b => callAIModel none (service b.language) b),
        (fun r : Except String TBatch => match r with
          | .error _ => true
          | .ok _ => false) r = true := by
      intro r hr
      obtain ⟨b, hb, rfl⟩ := List.mem_map.mp hr
      rfl
    rw [List.countP_eq_length.mpr hall, List.length_map]
  · have hfil : ∀ lang ∈ targetLangs,
        ¬ ((!(((buildBatches batchSize hashes docsOf targetLangs).map
            (fun b => callAIModel none (service b.language) b)).filterMap
              (fun r => match r with
                | .ok b => if b.language = lang then some b else none
                | .error _ => none)).isEmpty) = true) := by
      intro lang _
      have hmt : ((buildBatches batchSize hashes docsOf targetLangs).map
          (fun b => callAIModel none (service b.language) b)).filterMap
            (fun r => match r with
              | .ok b => if b.language = lang then some b else none
              | .error _ => none) = [] := by
        rw [List.filterMap_eq_nil]
        intro r hr
        obtain ⟨b, hb, rfl⟩ := List.mem_map.mp hr
        rfl
      rw [hmt]
      simp
    rw [List.filter_eq_nil.mpr hfil, List.map_nil]

/-! ## Extraction: support lemmas -/

theorem hasDupKeys_eq_false (l : List String) :
    hasDupKeys l = false ↔ l.Nodup := by
  induction l with
  | nil => simp [hasDupKeys]
  | cons k rest ih =>
    rw [hasDupKeys]
    simp only [Bool.or_eq_false_iff, List.nodup_cons, ih]
    constructor
    · rintro ⟨h1, h2⟩
      exact ⟨by simpa using h1, h2⟩
    · rintro ⟨h1, h2⟩
      exact ⟨by simpa using h1, h2⟩

theorem noArrT_of_mem : ∀ (l : List (String × TValue)) (k : String) (v : TValue),
    noArrTEntries l = true → (k, v) ∈ l → noArrT v = true
  | (k0, v0) :: rest, k, v, h, hm => by
    rw [noArrTEntries] at h
    rcases List.mem_cons.mp hm with he | ht
    · injection he with h1 h2
      subst h2
      simp only [Bool.and_eq_true] at h
      exact h.1
    · simp only [Bool.and_eq_true] at h
      exact noArrT_of_mem rest k v h.2 ht

theorem wfKeys_of_mem : ∀ (l : List (String × TValue)) (k : String) (v : TValue),
    wfKeysEntries l = true → (k, v) ∈ l → wfKeys v = true
  | (k0, v0) :: rest, k, v, h, hm => by
    rw [wfKeysEntries] at h
    rcases List.mem_cons.mp hm with he | ht
    · injection he with h1 h2
      subst h2
      simp only [Bool.and_eq_true] at h
      exact h.1
    · simp only [Bool.and_eq_true] at h
      exact wfKeys_of_mem rest k v h.2 ht

theorem objLookup_of_mem_nodup : ∀ (l : List (String × TValue)) (k : String) (v : TValue),
    (l.map Prod.fst).Nodup → (k, v) ∈ l → objLookup l k = some v
  | (k0, v0) :: rest, k, v, hnd, hm => by
    rw [List.map_cons, List.nodup_cons] at hnd
    rcases List.mem_cons.mp hm with he | ht
    · injection he with h1 h2
      subst h1
      subst h2
      rw [objLookup_cons, if_pos rfl]
    · have hne : k0 ≠ k := by
        intro he
        exact hnd.1 (he ▸ List.mem_map.mpr ⟨(k, v), ht, rfl⟩)
      rw [objLookup_cons, if_neg hne]
      exact objLookup_of_mem_nodup rest k v hnd.2 ht

theorem objLookup_mem : ∀ (l : List (String × TValue)) (k : String) (v : TValue),
    objLookup l k = some v → (k, v) ∈ l
  | [], k, v, h => by
    rw [objLookup_nil] at h
    exact absurd h (by simp)
  | (k0, v0) :: rest, k, v, h => by
    rw [objLookup_cons] at h
    by_cases hk : k0 = k
    · rw [if_pos hk] at h
      injection h with h2
      subst hk
      subst h2
      exact List.mem_cons_self _ _
    · rw [if_neg hk] at h
      exact List.mem_cons_of_mem _ (objLookup_mem rest k v h)

theorem objLookup_map_pair (g : String → TValue → TValue) :
    ∀ (l : List (String × TValue)) (k : String),
      objLookup (l.map (fun p => (p.1, g p.1 p.2))) k = (objLookup l k).map (g k)
  | [], k => by simp [objLookup_nil]
  | (k0, v0) :: rest, k => by
    simp only [List.map_cons]
    by_cases hk : k0 = k
    · subst hk
      rw [objLookup_cons, objLookup_cons, if_pos rfl, if_pos rfl]
      rfl
    · rw [objLookup_cons, objLookup_cons, if_neg hk, if_neg hk,
        objLookup_map_pair g rest k]

theorem getNested_nil (o : Option TValue) : getNested o [] = o := rfl

theorem getNested_cons (v : TValue) (k : String) (rest : List String) :
    getNested (some v) (k :: rest) = getNested (getSeg v k) rest := rfl

theorem getNested_none : ∀ (p : List String), getNested none p = none
  | [] => rfl
  | _ :: rest => getNested_none rest

theorem keyIn_getSeg (v : TValue) (k : String) :
    (if keyIn v k then getSeg v k else none) = getSeg v k := by
  by_cases h : keyIn v k = true
  · rw [if_pos h]
  · rw [if_neg h]
    cases v with
    | obj l =>
      have hany : l.any (fun p => p.1 == k) = false := by
        cases hb : l.any (fun p => p.1 == k) with
        | false => rfl
        | true => exact absurd (show keyIn (.obj l) k = true from hb) h
      have hnone : objLookup l k = none := (objAny_eq_false_iff l k).mp hany
      simp [getSeg, hnone]
    | arr l =>
      simp only [keyIn] at h
      by_cases hc : k.data ≠ [] ∧ k.data.all (·.isDigit)
      · rw [if_pos hc] at h
        simp only [decide_eq_true_eq] at h
        simp only [getSeg]
        rw [if_pos hc]
        exact (List.get?_eq_none.mpr (Nat.le_of_not_lt h)).symm
      · simp only [getSeg]
        rw [if_neg hc]
    | str s => rfl
    | num n => rfl
    | bool b => rfl

theorem getNestedValue_eq_getNested (json : List (String × TValue))
    (path : List String) :
    getNestedValue json path = getNested (some (.obj json)) path := by
  have haux : ∀ (p : List String) (o : Option TValue),
      p.foldl (fun acc k =>
        acc.bind (fun v => if keyIn v k then getSeg v k else none)) o
        = getNested o p := by
    intro p
    induction p with
    | nil => intro o; rfl
    | cons k rest ih =>
      intro o
      show List.foldl _
        (o.bind fun v => if keyIn v k then getSeg v k else none) rest = _
      rw [ih]
      have hseed : (o.bind fun v => if keyIn v k then getSeg v k else none)
          = o.bind fun v => getSeg v k := by
        cases o with
        | none => rfl
        | some v => exact keyIn_getSeg v k
      rw [hseed]
      rfl
  exact haux path (some (.obj json))

theorem splitDotAux_ne_nil : ∀ (l : List Char) (acc : List Char),
    splitDotAux acc l ≠ []
  | [], acc => by simp [splitDotAux]
  | c :: rest, acc => by
    rw [splitDotAux]
    by_cases hc : c = '.'
    · rw [if_pos hc]
      simp
    · rw [if_neg hc]
      exact splitDotAux_ne_nil rest (c :: acc)

theorem splitDot_ne_nil (s : String) : splitDot s ≠ [] :=
  splitDotAux_ne_nil s.data []

theorem noArrTEntries_append : ∀ (a b : List (String × TValue)),
    noArrTEntries (a ++ b) = (noArrTEntries a && noArrTEntries b)
  | [], b => by simp [noArrTEntries]
  | (k, v) :: rest, b => by
    rw [List.cons_append, noArrTEntries, noArrTEntries,
      noArrTEntries_append rest b, Bool.and_assoc]

theorem noArrTEntries_map_upd (k : String) (v : TValue) (hv : noArrT v = true) :
    ∀ (l : List (String × TValue)), noArrTEntries l = true →
      noArrTEntries (l.map (objUpd k v)) = true
  | [], h => h
  | (k0, v0) :: rest, h => by
    rw [noArrTEntries, Bool.and_eq_true] at h
    rw [List.map_cons, objUpd_apply]
    by_cases hk : k0 = k
    · rw [if_pos hk, noArrTEntries]
      simp [hv, noArrTEntries_map_upd k v hv rest h.2]
    · rw [if_neg hk, noArrTEntries]
      simp [h.1, noArrTEntries_map_upd k v hv rest h.2]

theorem noArrTEntries_objSet (l : List (String × TValue)) (k : String)
    (v : TValue) (hl : noArrTEntries l = true) (hv : noArrT v = true) :
    noArrTEntries (objSet l k v) = true := by
  rw [objSet]
  by_cases hany : l.any (fun p => p.1 == k) = true
  · rw [if_pos hany]
    exact noArrTEntries_map_upd k v hv l hl
  · rw [if_neg hany, noArrTEntries_append]
    simp [hl, hv, noArrTEntries]

theorem noArrT_objLookup (l : List (String × TValue)) (k : String) (c : TValue)
    (hl : noArrTEntries l = true) (h : objLookup l k = some c) :
    noArrT c = true :=
  noArrT_of_mem l k c hl (objLookup_mem l k c h)

theorem setNestedValue_cons2 (cur : TValue) (k k2 : String)
    (rest : List String) (v : TValue) :
    setNestedValue cur (k :: k2 :: rest) v =
      setIdx cur k (setNestedValue
        (match getSeg cur k with
         | some c => if jsTypeof c = "object" then c else TValue.obj []
         | none => TValue.obj []) (k2 :: rest) v) := rfl

theorem noArrT_setNestedValue : ∀ (p : List String) (cur w : TValue),
    noArrT cur = true → noArrT w = true →
    noArrT (setNestedValue cur p w) = true
  | [], cur, w, hc, _ => hc
  | [k], cur, w, hc, hw => by
    cases cur with
    | obj l =>
      show noArrT (.obj (objSet l k w)) = true
      rw [noArrT]
      exact noArrTEntries_objSet l k w (by rw [noArrT] at hc; exact hc) hw
    | arr l => rw [noArrT] at hc; exact absurd hc (by simp)
    | str s => exact hc
    | num n => exact hc
    | bool b => exact hc
  | k :: k2 :: rest, cur, w, hc, hw => by
    rw [setNestedValue_cons2]
    cases cur with
    | obj l =>
      rw [noArrT] at hc
      cases hg : getSeg (TValue.obj l) k with
      | none =>
        show noArrT (setIdx (TValue.obj l) k
          (setNestedValue (TValue.obj []) (k2 :: rest) w)) = true
        have hx := noArrT_setNestedValue (k2 :: rest) (TValue.obj []) w rfl hw
        show noArrT (TValue.obj (objSet l k _)) = true
        rw [noArrT]
        exact noArrTEntries_objSet l k _ hc hx
      | some c0 =>
        show noArrT (setIdx (TValue.obj l) k
          (setNestedValue (if jsTypeof c0 = "object" then c0 else TValue.obj [])
            (k2 :: rest) w)) = true
        by_cases ht : jsTypeof c0 = "object"
        · rw [if_pos ht]
          have hx := noArrT_setNestedValue (k2 :: rest) c0 w
            (noArrT_objLookup l k c0 hc hg) hw
          show noArrT (TValue.obj (objSet l k _)) = true
          rw [noArrT]
          exact noArrTEntries_objSet l k _ hc hx
        · rw [if_neg ht]
          have hx := noArrT_setNestedValue (k2 :: rest) (TValue.obj []) w rfl hw
          show noArrT (TValue.obj (objSet l k _)) = true
          rw [noArrT]
          exact noArrTEntries_objSet l k _ hc hx
    | arr l => rw [noArrT] at hc; exact absurd hc (by simp)
    | str s =>
      show noArrT (TValue.str s) = true
      rfl
    | num n =>
      show noArrT (TValue.num n) = true
      rfl
    | bool b =>
      show noArrT (TValue.bool b) = true
      rfl

theorem setNested_resolve : ∀ (p : List String) (l : List (String × TValue))
    (w : TValue), p ≠ [] → noArrTEntries l = true →
    getNested (some (setNestedValue (.obj l) p w)) p = some w
  | [], _, _, hp, _ => absurd rfl hp
  | [k], l, w, _, _ => by
    show getNested (some (TValue.obj (objSet l k w))) [k] = some w
    show objLookup (objSet l k w) k = some w
    rw [objLookup_objSet, if_pos rfl]
  | k :: k2 :: rest, l, w, _, hl => by
    rw [setNestedValue_cons2]
    cases hg : getSeg (TValue.obj l) k with
    | none =>
      show getNested (some (setIdx (TValue.obj l) k
        (setNestedValue (TValue.obj []) (k2 :: rest) w))) (k :: k2 :: rest) = some w
      rw [getNested_cons]
      show getNested (objLookup (objSet l k _) k) (k2 :: rest) = some w
      rw [objLookup_objSet, if_pos rfl]
      exact setNested_resolve (k2 :: rest) [] w (by simp) rfl
    | some c =>
      show getNested (some (setIdx (TValue.obj l) k
        (setNestedValue (if jsTypeof c = "object" then c else TValue.obj [])
          (k2 :: rest) w))) (k :: k2 :: rest) = some w
      by_cases ht : jsTypeof c = "object"
      · rw [if_pos ht]
        cases c with
        | obj cl =>
          rw [getNested_cons]
          show getNested (objLookup (objSet l k _) k) (k2 :: rest) = some w
          rw [objLookup_objSet, if_pos rfl]
          refine setNested_resolve (k2 :: rest) cl w (by simp) ?_
          have hno := noArrT_objLookup l k (.obj cl) hl hg
          rw [noArrT] at hno
          exact hno
        | arr cl =>
          have hno := noArrT_objLookup l k (.arr cl) hl hg
          rw [noArrT] at hno
          exact absurd hno (by simp)
        | str s => rw [jsTypeof] at ht; exact absurd ht (by simp)
        | num n => rw [jsTypeof] at ht; exact absurd ht (by simp)
        | bool b => rw [jsTypeof] at ht; exact absurd ht (by simp)
      · rw [if_neg ht]
        rw [getNested_cons]
        show getNested (objLookup (objSet l k _) k) (k2 :: rest) = some w
        rw [objLookup_objSet, if_pos rfl]
        exact setNested_resolve (k2 :: rest) [] w (by simp) rfl

theorem setNested_fresh_divergent : ∀ (q r : List String) (w : TValue),
    ¬ q <+: r → ¬ r <+: q →
    getNested (some (setNestedValue (.obj []) q w)) r = none
  | [], r, w, hq, _ => absurd List.nil_prefix hq
  | q, [], w, _, hr => absurd List.nil_prefix hr
  | [k], r0 :: rr, w, hq, hr => by
    have hk : r0 ≠ k := by
      intro he
      subst he
      exact hq ⟨rr, rfl⟩
    show getNested (some (TValue.obj (objSet [] k w))) (r0 :: rr) = none
    rw [getNested_cons]
    show getNested (objLookup (objSet [] k w) r0) rr = none
    rw [objLookup_objSet, if_neg (fun he => hk he.symm), objLookup_nil]
    exact getNested_none rr
  | k :: k2 :: qrest, r0 :: rr, w, hq, hr => by
    rw [setNestedValue_cons2]
    have hgnil : getSeg (TValue.obj ([] : List (String × TValue))) k = none := rfl
    rw [hgnil]
    show getNested (some (setIdx (TValue.obj []) k
      (setNestedValue (TValue.obj []) (k2 :: qrest) w))) (r0 :: rr) = none
    by_cases hk : r0 = k
    · subst hk
      rw [getNested_cons]
      show getNested (objLookup (objSet [] r0 _) r0) rr = none
      rw [objLookup_objSet, if_pos rfl]
      refine setNested_fresh_divergent (k2 :: qrest) rr w ?_ ?_
      · intro hpre
        exact hq (List.cons_prefix_cons.mpr ⟨rfl, hpre⟩)
      · intro hpre
        exact hr (List.cons_prefix_cons.mpr ⟨rfl, hpre⟩)
    · rw [getNested_cons]
      show getNested (objLookup (objSet [] k _) r0) rr = none
      rw [objLookup_objSet, if_neg (fun he => hk he.symm), objLookup_nil]
      exact getNested_none rr

theorem setNested_preserve : ∀ (p2 : List String) (l : List (String × TValue))
    (w : TValue) (p1 : List String), noArrTEntries l = true →
    ¬ p1 <+: p2 → ¬ p2 <+: p1 →
    getNested (some (setNestedValue (.obj l) p2 w)) p1 =
      getNested (some (.obj l)) p1
  | p2, l, w, [], _, h1, _ => absurd List.nil_prefix h1
  | [], l, w, p1, _, _, h2 => absurd List.nil_prefix h2
  | [k], l, w, k1 :: rest1, hl, h1, h2 => by
    have hk : k1 ≠ k := by
      intro he
      subst he
      exact h2 ⟨rest1, rfl⟩
    show getNested (some (TValue.obj (objSet l k w))) (k1 :: rest1) = _
    rw [getNested_cons, getNested_cons]
    show getNested (objLookup (objSet l k w) k1) rest1 =
      getNested (objLookup l k1) rest1
    rw [objLookup_objSet, if_neg (fun he => hk he.symm)]
  | k :: k2 :: rest2, l, w, k1 :: rest1, hl, h1, h2 => by
    rw [setNestedValue_cons2]
    by_cases hk : k1 = k
    · subst hk
      have hr1 : ¬ rest1 <+: (k2 :: rest2) := by
        intro hpre
        exact h1 (List.cons_prefix_cons.mpr ⟨rfl, hpre⟩)
      have hr2 : ¬ (k2 :: rest2) <+: rest1 := by
        intro hpre
        exact h2 (List.cons_prefix_cons.mpr ⟨rfl, hpre⟩)
      cases hg : getSeg (TValue.obj l) k1 with
      | none =>
        show getNested (some (setIdx (TValue.obj l) k1
          (setNestedValue (TValue.obj []) (k2 :: rest2) w))) (k1 :: rest1) = _
        rw [getNested_cons, getNested_cons]
        show getNested (objLookup (objSet l k1 _) k1) rest1 =
          getNested (objLookup l k1) rest1
        rw [objLookup_objSet, if_pos rfl]
        have hgl : objLookup l k1 = none := hg
        rw [hgl, getNested_none,
          setNested_fresh_divergent (k2 :: rest2) rest1 w hr2 hr1]
      | some c =>
        show getNested (some (setIdx (TValue.obj l) k1
          (setNestedValue (if jsTypeof c = "object" then c else TValue.obj [])
            (k2 :: rest2) w))) (k1 :: rest1) = _
        rw [getNested_cons, getNested_cons]
        show getNested (objLookup (objSet l k1 _) k1) rest1 =
          getNested (objLookup l k1) rest1
        rw [objLookup_objSet, if_pos rfl]
        have hgl : objLookup l k1 = some c := hg
        rw [hgl]
        by_cases ht : jsTypeof c = "object"
        · rw [if_pos ht]
          cases c with
          | obj cl =>
            refine setNested_preserve (k2 :: rest2) cl w rest1 ?_ hr1 hr2
            have hno := noArrT_objLookup l k1 (.obj cl) hl hg
            rw [noArrT] at hno
            exact hno
          | arr cl =>
            have hno := noArrT_objLookup l k1 (.arr cl) hl hg
            rw [noArrT] at hno
            exact absurd hno (by simp)
          | str s => rw [jsTypeof] at ht; exact absurd ht (by simp)
          | num n => rw [jsTypeof] at ht; exact absurd ht (by simp)
          | bool b => rw [jsTypeof] at ht; exact absurd ht (by simp)
        · rw [if_neg ht]
          rw [setNested_fresh_divergent (k2 :: rest2) rest1 w hr2 hr1]
          cases c with
          | obj cl => rw [jsTypeof] at ht; exact absurd rfl ht
          | arr cl => rw [jsTypeof] at ht; exact absurd rfl ht
          | str s =>
            cases rest1 with
            | nil => exact absurd ⟨k2 :: rest2, rfl⟩ h1
            | cons a b =>
              rw [getNested_cons]
              show none = getNested (getSeg (TValue.str s) a) b
              rw [show getSeg (TValue.str s) a = none from rfl, getNested_none]
          | num n =>
            cases rest1 with
            | nil => exact absurd ⟨k2 :: rest2, rfl⟩ h1
            | cons a b =>
              rw [getNested_cons]
              show none = getNested (getSeg (TValue.num n) a) b
              rw [show getSeg (TValue.num n) a = none from rfl, getNested_none]
          | bool bb =>
            cases rest1 with
            | nil => exact absurd ⟨k2 :: rest2, rfl⟩ h1
            | cons a b =>
              rw [getNested_cons]
              show none = getNested (getSeg (TValue.bool bb) a) b
              rw [show getSeg (TValue.bool bb) a = none from rfl, getNested_none]
    · cases hg : getSeg (TValue.obj l) k with
      | none =>
        show getNested (some (setIdx (TValue.obj l) k
          (setNestedValue (TValue.obj []) (k2 :: rest2) w))) (k1 :: rest1) = _
        rw [getNested_cons, getNested_cons]
        show getNested (objLookup (objSet l k _) k1) rest1 =
          getNested (objLookup l k1) rest1
        rw [objLookup_objSet, if_neg (fun he => hk he.symm)]
      | some c =>
        show getNested (some (setIdx (TValue.obj l) k
          (setNestedValue (if jsTypeof c = "object" then c else TValue.obj [])
            (k2 :: rest2) w))) (k1 :: rest1) = _
        rw [getNested_cons, getNested_cons]
        show getNested (objLookup (objSet l k _) k1) rest1 =
          getNested (objLookup l k1) rest1
        rw [objLookup_objSet, if_neg (fun he => hk he.symm)]

/-! ## Re-merging is the identity on a merge result -/

theorem tvalue_sizeOf_pos (s : TValue) : 0 < sizeOf s := by
  cases s <;> simp only [TValue.str.sizeOf_spec, TValue.num.sizeOf_spec,
    TValue.bool.sizeOf_spec, TValue.arr.sizeOf_spec, TValue.obj.sizeOf_spec]
    <;> omega

theorem sizeOf_lt_of_mem_entries (l : List (String × TValue)) (k : String)
    (v : TValue) (h : (k, v) ∈ l) : sizeOf v < sizeOf (TValue.obj l) := by
  have h1 := List.sizeOf_lt_of_mem h
  simp only [Prod.mk.sizeOf_spec] at h1
  simp only [TValue.obj.sizeOf_spec]
  omega

theorem noArrT_mergeDeep : ∀ (n : Nat) (s : TValue) (t : Option TValue),
    sizeOf s ≤ n → noArrT s = true → noArrT (mergeDeep true t s) = true := by
  intro n
  induction n with
  | zero =>
    intro s t hsz _
    exact absurd hsz (by have := tvalue_sizeOf_pos s; omega)
  | succ n ih =>
    intro s t hsz hna
    cases t with
    | none => rw [mergeDeep_none]; exact hna
    | some tv =>
      cases s with
      | arr l => rw [noArrT] at hna; exact absurd hna (by simp)
      | str a =>
        cases tv with
        | str b => rw [mergeDeep_str_str]; rfl
        | num m =>
          rw [mergeDeep_mismatch true _ _ (by simp [jsTypeof])]; exact hna
        | bool b =>
          rw [mergeDeep_mismatch true _ _ (by simp [jsTypeof])]; exact hna
        | arr ta =>
          rw [mergeDeep_mismatch true _ _ (by simp [jsTypeof])]; exact hna
        | obj tl =>
          rw [mergeDeep_mismatch true _ _ (by simp [jsTypeof])]; exact hna
      | num a =>
        cases tv with
        | num b => rw [mergeDeep_num_num]; rfl
        | str b =>
          rw [mergeDeep_mismatch true _ _ (by simp [jsTypeof])]; exact hna
        | bool b =>
          rw [mergeDeep_mismatch true _ _ (by simp [jsTypeof])]; exact hna
        | arr ta =>
          rw [mergeDeep_mismatch true _ _ (by simp [jsTypeof])]; exact hna
        | obj tl =>
          rw [mergeDeep_mismatch true _ _ (by simp [jsTypeof])]; exact hna
      | bool a =>
        cases tv with
        | bool b => rw [mergeDeep_bool_bool]; rfl
        | str b =>
          rw [mergeDeep_mismatch true _ _ (by simp [jsTypeof])]; exact hna
        | num b =>
          rw [mergeDeep_mismatch true _ _ (by simp [jsTypeof])]; exact hna
        | arr ta =>
          rw [mergeDeep_mismatch true _ _ (by simp [jsTypeof])]; exact hna
        | obj tl =>
          rw [mergeDeep_mismatch true _ _ (by simp [jsTypeof])]; exact hna
      | obj sl =>
        have hnae : noArrTEntries sl = true := by rw [noArrT] at hna; exact hna
        have hinner : ∀ (tl sl2 acc : List (String × TValue)),
            (∀ q ∈ sl2, noArrT q.2 = true ∧ sizeOf q.2 ≤ n) →
            noArrTEntries acc = true →
            noArrTEntries (mergeDeepEntries true tl acc sl2) = true := by
          intro tl sl2
          induction sl2 with
          | nil =>
            intro acc _ hacc
            rw [mergeDeepEntries_nil]
            exact hacc
          | cons q rest ihl =>
            intro acc hq hacc
            obtain ⟨k0, v0⟩ := q
            rw [mergeDeepEntries_cons]
            refine ihl _ (fun q hqm => hq q (List.mem_cons_of_mem _ hqm)) ?_
            refine noArrTEntries_objSet _ _ _ hacc ?_
            have hv := hq (k0, v0) (List.mem_cons_self _ _)
            exact ih v0 (objLookup tl k0) hv.2 hv.1
        have hfacts : ∀ q ∈ sl, noArrT q.2 = true ∧ sizeOf q.2 ≤ n := by
          intro q hqm
          obtain ⟨k0, v0⟩ := q
          refine ⟨noArrT_of_mem sl k0 v0 hnae hqm, ?_⟩
          show sizeOf v0 ≤ n
          have hlt := sizeOf_lt_of_mem_entries sl k0 v0 hqm
          omega
        cases tv with
        | str b =>
          rw [mergeDeep_mismatch true _ _ (by simp [jsTypeof])]; exact hna
        | num b =>
          rw [mergeDeep_mismatch true _ _ (by simp [jsTypeof])]; exact hna
        | bool b =>
          rw [mergeDeep_mismatch true _ _ (by simp [jsTypeof])]; exact hna
        | obj tl =>
          rw [mergeDeep_obj_obj]
          rw [noArrT]
          rw [show (if true = true then ([] : List (String × TValue)) else tl)
            = [] from rfl]
          exact hinner tl sl [] hfacts rfl
        | arr ta =>
          rw [mergeDeep_arr_obj]
          rw [noArrT]
          rw [show (if true = true then ([] : List (String × TValue))
            else arrEntries ta) = [] from rfl]
          exact hinner (arrEntries ta) sl [] hfacts rfl

theorem mergeDeep_reidem : ∀ (n : Nat) (s : TValue) (t : Option TValue),
    sizeOf s ≤ n → noArrT s = true → wfKeys s = true →
    mergeDeep true (some (mergeDeep true t s)) s = mergeDeep true t s := by
  intro n
  induction n with
  | zero =>
    intro s t hsz _ _
    exact absurd hsz (by have := tvalue_sizeOf_pos s; omega)
  | succ n ih =>
    intro s t hsz hna hwf
    cases s with
    | arr l => rw [noArrT] at hna; exact absurd hna (by simp)
    | str a =>
      cases t with
      | none => rw [mergeDeep_none, mergeDeep_str_str]
      | some tv =>
        cases tv with
        | str b => rw [mergeDeep_str_str, mergeDeep_str_str]
        | num m =>
          rw [mergeDeep_mismatch true (TValue.num m) (TValue.str a)
            (by simp [jsTypeof]), mergeDeep_str_str]
        | bool b =>
          rw [mergeDeep_mismatch true (TValue.bool b) (TValue.str a)
            (by simp [jsTypeof]), mergeDeep_str_str]
        | arr ta =>
          rw [mergeDeep_mismatch true (TValue.arr ta) (TValue.str a)
            (by simp [jsTypeof]), mergeDeep_str_str]
        | obj tl =>
          rw [mergeDeep_mismatch true (TValue.obj tl) (TValue.str a)
            (by simp [jsTypeof]), mergeDeep_str_str]
    | num a =>
      cases t with
      | none => rw [mergeDeep_none, mergeDeep_num_num]
      | some tv =>
        cases tv with
        | num b => rw [mergeDeep_num_num, mergeDeep_num_num]
        | str b =>
          rw [mergeDeep_mismatch true (TValue.str b) (TValue.num a)
            (by simp [jsTypeof]), mergeDeep_num_num]
        | bool b =>
          rw [mergeDeep_mismatch true (TValue.bool b) (TValue.num a)
            (by simp [jsTypeof]), mergeDeep_num_num]
        | arr ta =>
          rw [mergeDeep_mismatch true (TValue.arr ta) (TValue.num a)
            (by simp [jsTypeof]), mergeDeep_num_num]
        | obj tl =>
          rw [mergeDeep_mismatch true (TValue.obj tl) (TValue.num a)
            (by simp [jsTypeof]), mergeDeep_num_num]
    | bool a =>
      cases t with
      | none => rw [mergeDeep_none, mergeDeep_bool_bool]
      | some tv =>
        cases tv with
        | bool b => rw [mergeDeep_bool_bool, mergeDeep_bool_bool]
        | str b =>
          rw [mergeDeep_mismatch true (TValue.str b) (TValue.bool a)
            (by simp [jsTypeof]), mergeDeep_bool_bool]
        | num b =>
          rw [mergeDeep_mismatch true (TValue.num b) (TValue.bool a)
            (by simp [jsTypeof]), mergeDeep_bool_bool]
        | arr ta =>
          rw [mergeDeep_mismatch true (TValue.arr ta) (TValue.bool a)
            (by simp [jsTypeof]), mergeDeep_bool_bool]
        | obj tl =>
          rw [mergeDeep_mismatch true (TValue.obj tl) (TValue.bool a)
            (by simp [jsTypeof]), mergeDeep_bool_bool]
    | obj sl =>
      have hnodup : (sl.map Prod.fst).Nodup := by
        rw [wfKeys, Bool.and_eq_true] at hwf
        have h1 := hwf.1
        rw [Bool.not_eq_true'] at h1
        exact (hasDupKeys_eq_false _).mp h1
      have hwfe : wfKeysEntries sl = true := by
        rw [wfKeys, Bool.and_eq_true] at hwf
        exact hwf.2
      have hnae : noArrTEntries sl = true := by rw [noArrT] at hna; exact hna
      have hihv : ∀ (k0 : String) (v0 : TValue), (k0, v0) ∈ sl →
          ∀ (t0 : Option TValue),
          mergeDeep true (some (mergeDeep true t0 v0)) v0 = mergeDeep true t0 v0 := by
        intro k0 v0 hm t0
        refine ih v0 t0 ?_ (noArrT_of_mem sl k0 v0 hnae hm)
          (wfKeys_of_mem sl k0 v0 hwfe hm)
        have hlt := sizeOf_lt_of_mem_entries sl k0 v0 hm
        omega
      have hmain : ∀ (tl : List (String × TValue)),
          mergeDeep true (some (.obj (sl.map (fun p =>
            (p.1, mergeDeep true (objLookup tl p.1) p.2))))) (.obj sl)
          = .obj (sl.map (fun p =>
            (p.1, mergeDeep true (objLookup tl p.1) p.2))) := by
        intro tl
        rw [mergeDeep_obj_obj]
        rw [show (if true = true then ([] : List (String × TValue))
          else sl.map (fun p =>
            (p.1, mergeDeep true (objLookup tl p.1) p.2))) = [] from rfl]
        rw [mergeDeepEntries_eq_append true _ sl [] hnodup (fun p _ => rfl),
          List.nil_append]
        congr 1
        apply List.map_congr_left
        intro p hp
        obtain ⟨k0, v0⟩ := p
        have hlk : objLookup sl k0 = some v0 :=
          objLookup_of_mem_nodup sl k0 v0 hnodup hp
        rw [objLookup_map_pair (fun k v => mergeDeep true (objLookup tl k) v) sl k0,
          hlk]
        show (k0, mergeDeep true (some (mergeDeep true (objLookup tl k0) v0)) v0)
          = (k0, mergeDeep true (objLookup tl k0) v0)
        rw [hihv k0 v0 hp (objLookup tl k0)]
      have hself : mergeDeep true (some (.obj sl)) (.obj sl) = .obj sl := by
        rw [mergeDeep_obj_obj]
        rw [show (if true = true then ([] : List (String × TValue)) else sl)
          = [] from rfl]
        rw [mergeDeepEntries_eq_append true sl sl [] hnodup (fun p _ => rfl),
          List.nil_append]
        congr 1
        have hid : ∀ p ∈ sl, (fun (p : String × TValue) =>
            (p.1, mergeDeep true (objLookup sl p.1) p.2)) p = id p := by
          intro p hp
          obtain ⟨k0, v0⟩ := p
          have hlk : objLookup sl k0 = some v0 :=
            objLookup_of_mem_nodup sl k0 v0 hnodup hp
          show (k0, mergeDeep true (objLookup sl k0) v0) = (k0, v0)
          rw [hlk]
          have hv := hihv k0 v0 hp none
          rw [mergeDeep_none] at hv
          rw [hv]
        rw [List.map_congr_left hid, List.map_id]
      cases t with
      | none =>
        rw [mergeDeep_none]
        exact hself
      | some tv =>
        cases tv with
        | str b =>
          rw [mergeDeep_mismatch true (TValue.str b) (TValue.obj sl)
            (by simp [jsTypeof])]
          exact hself
        | num b =>
          rw [mergeDeep_mismatch true (TValue.num b) (TValue.obj sl)
            (by simp [jsTypeof])]
          exact hself
        | bool b =>
          rw [mergeDeep_mismatch true (TValue.bool b) (TValue.obj sl)
            (by simp [jsTypeof])]
          exact hself
        | obj tl =>
          rw [mergeDeep_obj_obj]
          rw [show (if true = true then ([] : List (String × TValue)) else tl)
            = [] from rfl]
          rw [mergeDeepEntries_eq_append true tl sl [] hnodup (fun p _ => rfl),
            List.nil_append]
          exact hmain tl
        | arr ta =>
          rw [mergeDeep_arr_obj]
          rw [show (if true = true then ([] : List (String × TValue))
            else arrEntries ta) = [] from rfl]
          rw [mergeDeepEntries_eq_append true (arrEntries ta) sl []
            hnodup (fun p _ => rfl), List.nil_append]
          exact hmain (arrEntries ta)

/-! ## The extraction loop: hash stability and per-step behaviour -/

theorem classifyKeys_fst (hashFn : TValue → String)
    (old : List (String × HashEntry)) :
    ∀ (keys : List (String × String × TValue)),
      (classifyKeys hashFn old keys).1 =
        keys.map (fun q => (q.1, ⟨hashFn q.2.2, q.2.2⟩))
  | [] => rfl
  | (fullKey, kp, dv) :: rest => by
    rw [classifyKeys]
    cases hh : hashLookup old fullKey with
    | none =>
      show (fullKey, (⟨hashFn dv, dv⟩ : HashEntry))
          :: (classifyKeys hashFn old rest).1 = _
      rw [classifyKeys_fst hashFn old rest]
      rfl
    | some o =>
      show (fullKey, (⟨hashFn dv, dv⟩ : HashEntry))
          :: (classifyKeys hashFn old rest).1 = _
      rw [classifyKeys_fst hashFn old rest]
      rfl

theorem hashLookup_map_self (f : String × String × TValue → HashEntry) :
    ∀ (keys : List (String × String × TValue)) (q : String × String × TValue),
      (keys.map (fun q => q.1)).Nodup → q ∈ keys →
      hashLookup (keys.map (fun q => (q.1, f q))) q.1 = some (f q)
  | q0 :: rest, q, hnd, hm => by
    rw [List.map_cons, List.nodup_cons] at hnd
    rw [List.map_cons, hashLookup]
    rcases List.mem_cons.mp hm with he | ht
    · subst he
      rw [if_pos rfl]
    · have hne : q0.1 ≠ q.1 := by
        intro he
        exact hnd.1 (he ▸ List.mem_map.mpr ⟨q, ht, rfl⟩)
      rw [if_neg hne]
      exact hashLookup_map_self f rest q hnd.2 ht

theorem classifyKeys_stable (hashFn : TValue → String) :
    ∀ (keys2 : List (String × String × TValue)) (nh : List (String × HashEntry)),
      (∀ q ∈ keys2, hashLookup nh q.1 = some ⟨hashFn q.2.2, q.2.2⟩) →
      (classifyKeys hashFn nh keys2).2.1 = [] ∧
      (classifyKeys hashFn nh keys2).2.2 = []
  | [], nh, _ => ⟨rfl, rfl⟩
  | (fullKey, kp, dv) :: rest, nh, hq => by
    have hh : hashLookup nh fullKey = some ⟨hashFn dv, dv⟩ :=
      hq (fullKey, kp, dv) (List.mem_cons_self _ _)
    have hrest := classifyKeys_stable hashFn rest nh
      (fun q hqm => hq q (List.mem_cons_of_mem _ hqm))
    rw [classifyKeys, hh]
    show (classifyKeys hashFn nh rest).2.1 = [] ∧
      (if (⟨hashFn dv, dv⟩ : HashEntry).hash ≠ hashFn dv then
        fullKey :: (classifyKeys hashFn nh rest).2.2
       else (classifyKeys hashFn nh rest).2.2) = []
    rw [if_neg (fun hne => hne rfl)]
    exact hrest

theorem setNestedValue_obj (l : List (String × TValue)) :
    ∀ (p : List String) (w : TValue), p ≠ [] →
      setNestedValue (.obj l) p w = .obj (setNestedDoc l p w)
  | [], _, hp => absurd rfl hp
  | [k], w, _ => rfl
  | k :: k2 :: rest, w, _ => rfl

theorem extractDocStep_cases (isDefaultLang : Bool) (changed : List String)
    (json : List (String × TValue)) (b : Bool) (q : String × String × TValue)
    (hwf : wfKeys q.2.2 = true) (hna : noArrT q.2.2 = true) :
    (extractDocStep isDefaultLang changed (json, b) q = (json, b) ∧
      stableKey isDefaultLang json q) ∨
    (∃ w, extractDocStep isDefaultLang changed (json, b) q
        = (setNestedDoc json (splitDot q.2.1) w, true) ∧
      noArrT w = true ∧
      mergeDeep true (some w) q.2.2 = w) := by
  have hself : mergeDeep true (some q.2.2) q.2.2 = q.2.2 := by
    have h := mergeDeep_reidem (sizeOf q.2.2) q.2.2 none le_rfl hna hwf
    rw [mergeDeep_none] at h
    exact h
  by_cases hd : isDefaultLang = true
  · subst hd
    by_cases hcond : (changed.contains q.1 ||
        (getNestedValue json (splitDot q.2.1)).isNone) = true
    · right
      refine ⟨q.2.2, ?_, hna, hself⟩
      simp only [extractDocStep]
      rw [if_pos (by trivial), if_pos hcond]
    · left
      constructor
      · simp only [extractDocStep]
        rw [if_pos (by trivial), if_neg hcond]
      · rw [Bool.or_eq_true] at hcond
        push_neg at hcond
        have hsome : (getNestedValue json (splitDot q.2.1)).isSome = true := by
          cases ho : getNestedValue json (splitDot q.2.1) with
          | none => exact absurd (by rw [ho]; rfl) hcond.2
          | some m => rfl
        obtain ⟨m, hm⟩ := Option.isSome_iff_exists.mp hsome
        exact ⟨m, hm, fun hfalse => absurd hfalse (by simp)⟩
  · have hd2 : isDefaultLang = false := Bool.not_eq_true _ |>.mp hd
    subst hd2
    by_cases hgate : (getNestedValue json (splitDot q.2.1)).map serialize ≠
        some (serialize (mergeDeep true
          (getNestedValue json (splitDot q.2.1)) q.2.2))
    · right
      refine ⟨mergeDeep true (getNestedValue json (splitDot q.2.1)) q.2.2,
        ?_, ?_, ?_⟩
      · simp only [extractDocStep, syncTranslationsStrictly, fillEmptyWithSource]
        rw [if_neg (by simp), if_pos (show True from trivial), if_pos hgate]
      · exact noArrT_mergeDeep (sizeOf q.2.2) q.2.2 _ le_rfl hna
      · exact mergeDeep_reidem (sizeOf q.2.2) q.2.2 _ le_rfl hna hwf
    · left
      rw [not_not] at hgate
      have hsome : ∃ m, getNestedValue json (splitDot q.2.1) = some m := by
        cases ho : getNestedValue json (splitDot q.2.1) with
        | none => rw [ho] at hgate; exact absurd hgate (by simp)
        | some m => exact ⟨m, rfl⟩
      obtain ⟨m, hm⟩ := hsome
      rw [hm] at hgate
      simp only [Option.map_some'] at hgate
      injection hgate with hser
      constructor
      · simp only [extractDocStep, syncTranslationsStrictly, fillEmptyWithSource]
        rw [if_neg (by simp), if_pos (show True from trivial)]
        rw [if_neg (show ¬ ((getNestedValue json (splitDot q.2.1)).map serialize ≠
            some (serialize (mergeDeep true
              (getNestedValue json (splitDot q.2.1)) q.2.2))) from by
          rw [hm]
          simp only [Option.map_some']
          intro hne
          exact hne (congrArg some hser))]
      · refine ⟨m, hm, fun _ => ?_⟩
        exact hser.symm

theorem extractRun_inv (isDefaultLang : Bool) (changed : List String) :
    ∀ (ks done : List (String × String × TValue))
      (json : List (String × TValue)) (b : Bool),
      noArrTEntries json = true →
      (∀ q ∈ ks, wfKeys q.2.2 = true ∧ noArrT q.2.2 = true) →
      (done ++ ks).Pairwise (fun q1 q2 =>
        ¬ splitDot q1.2.1 <+: splitDot q2.2.1 ∧
        ¬ splitDot q2.2.1 <+: splitDot q1.2.1) →
      (∀ q ∈ done, stableKey isDefaultLang json q) →
      noArrTEntries
        (ks.foldl (extractDocStep isDefaultLang changed) (json, b)).1 = true ∧
      ∀ q ∈ done ++ ks,
        stableKey isDefaultLang
          (ks.foldl (extractDocStep isDefaultLang changed) (json, b)).1 q
  | [], done, json, b, hjson, _, _, hdone => by
    refine ⟨hjson, fun q hq => ?_⟩
    rw [List.append_nil] at hq
    exact hdone q hq
  | q0 :: rest, done, json, b, hjson, hkey, hpair, hdone => by
    have hq0wf := hkey q0 (List.mem_cons_self _ _)
    have hpair2 : ((done ++ [q0]) ++ rest).Pairwise (fun q1 q2 =>
        ¬ splitDot q1.2.1 <+: splitDot q2.2.1 ∧
        ¬ splitDot q2.2.1 <+: splitDot q1.2.1) := by
      rw [List.append_assoc, List.singleton_append]
      exact hpair
    rcases extractDocStep_cases isDefaultLang changed json b q0 hq0wf.1 hq0wf.2 with
      ⟨heq, hstab⟩ | ⟨w, heq, hnaw, hmw⟩
    · rw [List.foldl_cons, heq]
      have hres := extractRun_inv isDefaultLang changed rest (done ++ [q0]) json b
        hjson (fun q hq => hkey q (List.mem_cons_of_mem _ hq)) hpair2
        (fun q hq => by
          rcases List.mem_append.mp hq with h1 | h2
          · exact hdone q h1
          · rw [List.mem_singleton] at h2
            subst h2
            exact hstab)
      refine ⟨hres.1, fun q hq => hres.2 q ?_⟩
      rw [List.append_assoc, List.singleton_append]
      exact hq
    · rw [List.foldl_cons, heq]
      have hp0ne := splitDot_ne_nil q0.2.1
      have hjson2 : noArrTEntries (setNestedDoc json (splitDot q0.2.1) w) = true := by
        have h1 := noArrT_setNestedValue (splitDot q0.2.1) (.obj json) w
          (by rw [noArrT]; exact hjson) hnaw
        rw [setNestedValue_obj json _ _ hp0ne, noArrT] at h1
        exact h1
      have hpairparts := List.pairwise_append.mp hpair
      have hpres : ∀ q ∈ done,
          getNestedValue (setNestedDoc json (splitDot q0.2.1) w) (splitDot q.2.1)
            = getNestedValue json (splitDot q.2.1) := by
        intro q hqd
        have hrel := hpairparts.2.2 q hqd q0 (List.mem_cons_self _ _)
        rw [getNestedValue_eq_getNested, getNestedValue_eq_getNested,
          ← setNestedValue_obj json _ _ hp0ne]
        exact setNested_preserve (splitDot q0.2.1) json w (splitDot q.2.1)
          hjson hrel.1 hrel.2
      have hstab0 : stableKey isDefaultLang
          (setNestedDoc json (splitDot q0.2.1) w) q0 := by
        refine ⟨w, ?_, fun _ => by rw [hmw]⟩
        rw [getNestedValue_eq_getNested, ← setNestedValue_obj json _ _ hp0ne]
        exact setNested_resolve (splitDot q0.2.1) json w hp0ne hjson
      have hres := extractRun_inv isDefaultLang changed rest (done ++ [q0])
        (setNestedDoc json (splitDot q0.2.1) w) true
        hjson2 (fun q hq => hkey q (List.mem_cons_of_mem _ hq)) hpair2
        (fun q hq => by
          rcases List.mem_append.mp hq with h1 | h2
          · obtain ⟨m, hm, hser⟩ := hdone q h1
            exact ⟨m, by rw [hpres q h1]; exact hm, hser⟩
          · rw [List.mem_singleton] at h2
            subst h2
            exact hstab0)
      refine ⟨hres.1, fun q hq => hres.2 q ?_⟩
      rw [List.append_assoc, List.singleton_append]
      exact hq

theorem extractRun_noop (isDefaultLang : Bool) (changed : List String) :
    ∀ (ks : List (String × String × TValue)) (json : List (String × TValue))
      (b : Bool),
      (∀ q ∈ ks, stableKey isDefaultLang json q ∧
        changed.contains q.1 = false) →
      ks.foldl (extractDocStep isDefaultLang changed) (json, b) = (json, b)
  | [], json, b, _ => rfl
  | q0 :: rest, json, b, h => by
    obtain ⟨⟨m, hres, hser⟩, hctn⟩ := h q0 (List.mem_cons_self _ _)
    have hstep : extractDocStep isDefaultLang changed (json, b) q0 = (json, b) := by
      by_cases hd : isDefaultLang = true
      · subst hd
        simp only [extractDocStep]
        rw [if_pos (show True from trivial)]
        rw [if_neg (show ¬ ((changed.contains q0.1 ||
            (getNestedValue json (splitDot q0.2.1)).isNone) = true) from by
          rw [hctn, hres]
          simp)]
      · have hd2 : isDefaultLang = false := Bool.not_eq_true _ |>.mp hd
        subst hd2
        have hser2 := hser rfl
        simp only [extractDocStep, syncTranslationsStrictly, fillEmptyWithSource]
        rw [if_neg (by simp), if_pos (show True from trivial)]
        rw [if_neg (show ¬ ((getNestedValue json (splitDot q0.2.1)).map serialize ≠
            some (serialize (mergeDeep true
              (getNestedValue json (splitDot q0.2.1)) q0.2.2))) from by
          rw [hres]
          simp only [Option.map_some']
          intro hne
          exact hne (congrArg some hser2.symm))]
    rw [List.foldl_cons, hstep]
    exact extractRun_noop isDefaultLang changed rest json b
      (fun q hqm => h q (List.mem_cons_of_mem _ hqm))

/-- C3: extraction is idempotent on a namespace document when the scanned
keys are distinct, their dotted key paths are pairwise prefix-incompatible,
and neither the document nor the default values contain arrays: immediately
re-running the change detection against the snapshot written by the first run
classifies zero keys as added and zero as changed, and the second document
pass performs no write — the document is unchanged and the `fileModified`
flag that gates `saveJsonFile` stays `false` (for the default language and
for every non-source language alike). -/
theorem c3_extract_idempotent
    (hashFn : TValue → String) (isDefaultLang : Bool)
    (keys : List (String × String × TValue))
    (oldHashes : List (String × HashEntry)) (json0 : List (String × TValue))
    (hnodup : (keys.map (fun q => q.1)).Nodup)
    (hpair : keys.Pairwise (fun q1 q2 =>
      (splitDot q1.2.1).isPrefixOf (splitDot q2.2.1) = false ∧
      (splitDot q2.2.1).isPrefixOf (splitDot q1.2.1) = false))
    (hwf : ∀ q ∈ keys, wfKeys q.2.2 = true ∧ noArrT q.2.2 = true)
    (hjson : noArrTEntries json0 = true) :
    (classifyKeys hashFn (classifyKeys hashFn oldHashes keys).1 keys).2.1 = [] ∧
    (classifyKeys hashFn (classifyKeys hashFn oldHashes keys).1 keys).2.2 = [] ∧
    extractDoc isDefaultLang
        (classifyKeys hashFn (classifyKeys hashFn oldHashes keys).1 keys).2.2
        keys
        (extractDoc isDefaultLang (classifyKeys hashFn oldHashes keys).2.2
          keys json0).1
      = ((extractDoc isDefaultLang (classifyKeys hashFn oldHashes keys).2.2
          keys json0).1, false) := by
  have hlk : ∀ q ∈ keys, hashLookup (classifyKeys hashFn oldHashes keys).1 q.1
      = some ⟨hashFn q.2.2, q.2.2⟩ := by
    intro q hq
    rw [classifyKeys_fst]
    exact hashLookup_map_self (fun q => ⟨hashFn q.2.2, q.2.2⟩) keys q hnodup hq
  have hclassify2 := classifyKeys_stable hashFn keys _ hlk
  refine ⟨hclassify2.1, hclassify2.2, ?_⟩
  have hpairP : keys.Pairwise (fun q1 q2 =>
      ¬ splitDot q1.2.1 <+: splitDot q2.2.1 ∧
      ¬ splitDot q2.2.1 <+: splitDot q1.2.1) := by
    refine hpair.imp ?_
    intro a b hab
    constructor
    · intro hp
      have hb := List.isPrefixOf_iff_prefix.mpr hp
      rw [hab.1] at hb
      exact absurd hb (by simp)
    · intro hp
      have hb := List.isPrefixOf_iff_prefix.mpr hp
      rw [hab.2] at hb
      exact absurd hb (by simp)
  have hrun1 := extractRun_inv isDefaultLang
    (classifyKeys hashFn oldHashes keys).2.2 keys [] json0 false hjson hwf
    (by rw [List.nil_append]; exact hpairP)
    (fun q hq => absurd hq (List.not_mem_nil q))
  rw [hclassify2.2]
  exact extractRun_noop isDefaultLang [] keys
    (extractDoc isDefaultLang (classifyKeys hashFn oldHashes keys).2.2
      keys json0).1 false
    (fun q hq => ⟨hrun1.2 q (by rw [List.nil_append]; exact hq), rfl⟩)

/-- C3 counterexample: extraction is NOT idempotent in general.  The scan
yields `n:a.b` (new) and its strict-prefix key `n:a` (whose default changed
since the old snapshot).  Run 1 on the default-language document writes
`a.b = "X"` and then overwrites `a = "Y"`, clobbering the nested value.  Run 2
classifies zero keys as added and zero as changed — yet it finds `a.b` missing
again, rewrites it, sets `fileModified` (so the file is saved), and flips the
document content back to `a = {b: "X"}`: the saved content changes on the
second run with no source changes in between. -/
theorem c3_counterexample :
    (classifyKeys serialize
      (classifyKeys serialize c3exOld c3exKeys).1 c3exKeys).2.1 = [] ∧
    (classifyKeys serialize
      (classifyKeys serialize c3exOld c3exKeys).1 c3exKeys).2.2 = [] ∧
    (extractDoc true (classifyKeys serialize c3exOld c3exKeys).2.2
      c3exKeys []).1 = [("a", .str "Y")] ∧
    extractDoc true
        (classifyKeys serialize
          (classifyKeys serialize c3exOld c3exKeys).1 c3exKeys).2.2 c3exKeys
        [("a", .str "Y")]
      = ([("a", .obj [("b", .str "X")])], true) ∧
    [("a", TValue.obj [("b", TValue.str "X")])] ≠ [("a", TValue.str "Y")] := by
  refine ⟨rfl, rfl, rfl, rfl, ?_⟩
  intro h
  injection h with h1 _
  injection h1 with _ h2
  exact TValue.noConfusion h2

/-- Concrete instantiation of the idempotence theorem: a two-key snapshot
with prefix-incompatible paths on an empty non-source document. -/
theorem c3_witness :
    ((c3wKeys.map (fun q => q.1)).Nodup ∧
      c3wKeys.Pairwise (fun q1 q2 =>
        (splitDot q1.2.1).isPrefixOf (splitDot q2.2.1) = false ∧
        (splitDot q2.2.1).isPrefixOf (splitDot q1.2.1) = false) ∧
      (∀ q ∈ c3wKeys, wfKeys q.2.2 = true ∧ noArrT q.2.2 = true) ∧
      noArrTEntries ([] : List (String × TValue)) = true) ∧
    ((classifyKeys serialize
        (classifyKeys serialize [] c3wKeys).1 c3wKeys).2.1 = [] ∧
      (classifyKeys serialize
        (classifyKeys serialize [] c3wKeys).1 c3wKeys).2.2 = [] ∧
      extractDoc false
          (classifyKeys serialize
            (classifyKeys serialize [] c3wKeys).1 c3wKeys).2.2 c3wKeys
          (extractDoc false (classifyKeys serialize [] c3wKeys).2.2
            c3wKeys []).1
        = ((extractDoc false (classifyKeys serialize [] c3wKeys).2.2
            c3wKeys []).1, false)) :=
  ⟨⟨by decide, by decide, by decide, rfl⟩,
    c3_extract_idempotent serialize false c3wKeys [] []
      (by decide) (by decide) (by decide) rfl⟩

/-! ## clean.ts: removal lemmas -/

theorem objSet_ne_nil (l : List (String × TValue)) (k : String) (v : TValue) :
    objSet l k v ≠ [] := by
  rw [objSet]
  by_cases hany : l.any (fun p => p.1 == k) = true
  · rw [if_pos hany]
    intro h
    rw [List.map_eq_nil] at h
    subst h
    exact absurd hany (by simp)
  · rw [if_neg hany]
    simp

theorem objLookup_filter_self : ∀ (l : List (String × TValue)) (k : String),
    objLookup (l.filter (fun p => decide (p.1 ≠ k))) k = none
  | [], k => rfl
  | (k0, v0) :: rest, k => by
    rw [List.filter_cons]
    by_cases hk : k0 = k
    · rw [if_neg (by simp [hk])]
      exact objLookup_filter_self rest k
    · rw [if_pos (by simp [hk]), objLookup_cons, if_neg hk]
      exact objLookup_filter_self rest k

theorem objLookup_filter_ne : ∀ (l : List (String × TValue)) (k r0 : String),
    r0 ≠ k →
    objLookup (l.filter (fun p => decide (p.1 ≠ k))) r0 = objLookup l r0
  | [], k, r0, _ => rfl
  | (k0, v0) :: rest, k, r0, hne => by
    rw [List.filter_cons]
    by_cases hk : k0 = k
    · rw [if_neg (by simp [hk]), objLookup_cons,
        if_neg (fun he => hne (he.symm.trans hk)), objLookup_filter_ne rest k r0 hne]
    · rw [if_pos (by simp [hk]), objLookup_cons, objLookup_cons]
      by_cases h0 : k0 = r0
      · rw [if_pos h0, if_pos h0]
      · rw [if_neg h0, if_neg h0]
        exact objLookup_filter_ne rest k r0 hne

theorem objLookup_of_filter_nil : ∀ (l : List (String × TValue)) (k r0 : String),
    l.filter (fun p => decide (p.1 ≠ k)) = [] → r0 ≠ k →
    objLookup l r0 = none
  | [], k, r0, _, _ => rfl
  | (k0, v0) :: rest, k, r0, hnil, hne => by
    rw [List.filter_cons] at hnil
    by_cases hk : k0 = k
    · rw [objLookup_cons, if_neg (fun he => hne (he.symm.trans hk))]
      rw [if_neg (by simp [hk])] at hnil
      exact objLookup_of_filter_nil rest k r0 hnil hne
    · rw [if_pos (by simp [hk])] at hnil
      exact absurd hnil (by simp)

theorem removeNestedKey_cons2 (obj : List (String × TValue)) (k k2 : String)
    (rest : List String) :
    removeNestedKey obj (k :: k2 :: rest) =
      match objLookup obj k with
      | some (.obj child) =>
        if (removeNestedKey child (k2 :: rest)).length = 0
        then obj.filter (fun p => decide (p.1 ≠ k))
        else objSet obj k (.obj (removeNestedKey child (k2 :: rest)))
      | _ => obj := rfl

theorem removeNested_resolve_none : ∀ (p : List String)
    (json : List (String × TValue)), p ≠ [] → noArrTEntries json = true →
    getNested (some (.obj (removeNestedKey json p))) p = none
  | [], _, hp, _ => absurd rfl hp
  | [k], json, _, _ => by
    show objLookup (json.filter (fun p => decide (p.1 ≠ k))) k = none
    exact objLookup_filter_self json k
  | k :: k2 :: rest, json, _, hna => by
    rw [removeNestedKey_cons2]
    cases hg : objLookup json k with
    | none =>
      show getNested (some (TValue.obj json)) (k :: k2 :: rest) = none
      rw [getNested_cons]
      show getNested (objLookup json k) (k2 :: rest) = none
      rw [hg]
      exact getNested_none _
    | some c =>
      cases c with
      | obj child =>
        have hchild : noArrTEntries child = true := by
          have h1 := noArrT_objLookup json k (.obj child) hna hg
          rw [noArrT] at h1
          exact h1
        by_cases hlen : (removeNestedKey child (k2 :: rest)).length = 0
        · show getNested (some (TValue.obj
            (if (removeNestedKey child (k2 :: rest)).length = 0
             then json.filter (fun p => decide (p.1 ≠ k))
             else objSet json k (.obj (removeNestedKey child (k2 :: rest))))))
            (k :: k2 :: rest) = none
          rw [if_pos hlen, getNested_cons]
          show getNested (objLookup (json.filter (fun p => decide (p.1 ≠ k))) k)
            (k2 :: rest) = none
          rw [objLookup_filter_self]
          exact getNested_none _
        · show getNested (some (TValue.obj
            (if (removeNestedKey child (k2 :: rest)).length = 0
             then json.filter (fun p => decide (p.1 ≠ k))
             else objSet json k (.obj (removeNestedKey child (k2 :: rest))))))
            (k :: k2 :: rest) = none
          rw [if_neg hlen, getNested_cons]
          show getNested (objLookup (objSet json k
            (.obj (removeNestedKey child (k2 :: rest)))) k) (k2 :: rest) = none
          rw [objLookup_objSet, if_pos rfl]
          exact removeNested_resolve_none (k2 :: rest) child (by simp) hchild
      | arr l =>
        have h1 := noArrT_objLookup json k (.arr l) hna hg
        rw [noArrT] at h1
        exact absurd h1 (by simp)
      | str s =>
        show getNested (some (TValue.obj json)) (k :: k2 :: rest) = none
        rw [getNested_cons]
        show getNested (objLookup json k) (k2 :: rest) = none
        rw [hg, getNested_cons]
        show getNested (getSeg (TValue.str s) k2) rest = none
        rw [show getSeg (TValue.str s) k2 = none from rfl]
        exact getNested_none _
      | num m =>
        show getNested (some (TValue.obj json)) (k :: k2 :: rest) = none
        rw [getNested_cons]
        show getNested (objLookup json k) (k2 :: rest) = none
        rw [hg, getNested_cons]
        show getNested (getSeg (TValue.num m) k2) rest = none
        rw [show getSeg (TValue.num m) k2 = none from rfl]
        exact getNested_none _
      | bool bb =>
        show getNested (some (TValue.obj json)) (k :: k2 :: rest) = none
        rw [getNested_cons]
        show getNested (objLookup json k) (k2 :: rest) = none
        rw [hg, getNested_cons]
        show getNested (getSeg (TValue.bool bb) k2) rest = none
        rw [show getSeg (TValue.bool bb) k2 = none from rfl]
        exact getNested_none _

theorem removeNested_to_nil : ∀ (q : List String)
    (child : List (String × TValue)) (r : List String),
    removeNestedKey child q = [] → ¬ q <+: r → ¬ r <+: q →
    getNested (some (.obj child)) r = none
  | [], _, r, _, hq, _ => absurd List.nil_prefix hq
  | q, _, [], _, _, hr => absurd List.nil_prefix hr
  | [q0], child, r0 :: rr, hnil, hq, _ => by
    have h0 : r0 ≠ q0 := by
      intro he
      subst he
      exact hq ⟨rr, rfl⟩
    rw [getNested_cons]
    show getNested (objLookup child r0) rr = none
    rw [objLookup_of_filter_nil child q0 r0 hnil h0]
    exact getNested_none _
  | q0 :: q1 :: qrest, child, r0 :: rr, hnil, hq, hr => by
    rw [removeNestedKey_cons2] at hnil
    rw [getNested_cons]
    show getNested (objLookup child r0) rr = none
    cases hg : objLookup child q0 with
    | none =>
      rw [hg] at hnil
      have hc : child = [] := hnil
      subst hc
      rw [objLookup_nil]
      exact getNested_none _
    | some c =>
      rw [hg] at hnil
      cases c with
      | obj grand =>
        have hnil2 : (if (removeNestedKey grand (q1 :: qrest)).length = 0
            then child.filter (fun p => decide (p.1 ≠ q0))
            else objSet child q0
              (.obj (removeNestedKey grand (q1 :: qrest)))) = [] := hnil
        by_cases hlen : (removeNestedKey grand (q1 :: qrest)).length = 0
        · rw [if_pos hlen] at hnil2
          by_cases h0 : r0 = q0
          · subst h0
            rw [hg]
            have hgrand : removeNestedKey grand (q1 :: qrest) = [] :=
              List.length_eq_zero.mp hlen
            have hq2 : ¬ (q1 :: qrest) <+: rr := by
              intro hpre
              exact hq (List.cons_prefix_cons.mpr ⟨rfl, hpre⟩)
            have hr2 : ¬ rr <+: (q1 :: qrest) := by
              intro hpre
              exact hr (List.cons_prefix_cons.mpr ⟨rfl, hpre⟩)
            exact removeNested_to_nil (q1 :: qrest) grand rr hgrand hq2 hr2
          · rw [objLookup_of_filter_nil child q0 r0 hnil2 h0]
            exact getNested_none _
        · rw [if_neg hlen] at hnil2
          exact absurd hnil2 (objSet_ne_nil _ _ _)
      | arr l =>
        have hc : child = [] := hnil
        subst hc
        rw [objLookup_nil]
        exact getNested_none _
      | str s =>
        have hc : child = [] := hnil
        subst hc
        rw [objLookup_nil]
        exact getNested_none _
      | num m =>
        have hc : child = [] := hnil
        subst hc
        rw [objLookup_nil]
        exact getNested_none _
      | bool bb =>
        have hc : child = [] := hnil
        subst hc
        rw [objLookup_nil]
        exact getNested_none _

theorem removeNested_preserve : ∀ (p : List String)
    (json : List (String × TValue)) (r : List String),
    ¬ r <+: p → ¬ p <+: r →
    getNested (some (.obj (removeNestedKey json p))) r =
      getNested (some (.obj json)) r
  | [], _, r, _, hp => absurd List.nil_prefix hp
  | p, _, [], hr, _ => absurd List.nil_prefix hr
  | [k], json, r0 :: rr, _, hp => by
    have h0 : r0 ≠ k := by
      intro he
      subst he
      exact hp ⟨rr, rfl⟩
    rw [getNested_cons, getNested_cons]
    show getNested (objLookup (json.filter (fun p => decide (p.1 ≠ k))) r0) rr
      = getNested (objLookup json r0) rr
    rw [objLookup_filter_ne json k r0 h0]
  | k :: k2 :: rest, json, r0 :: rr, hr, hp => by
    rw [removeNestedKey_cons2]
    cases hg : objLookup json k with
    | none => rfl
    | some c =>
      cases c with
      | obj child =>
        show getNested (some (TValue.obj
          (if (removeNestedKey child (k2 :: rest)).length = 0
           then json.filter (fun p => decide (p.1 ≠ k))
           else objSet json k (.obj (removeNestedKey child (k2 :: rest))))))
          (r0 :: rr) = getNested (some (TValue.obj json)) (r0 :: rr)
        by_cases hlen : (removeNestedKey child (k2 :: rest)).length = 0
        · rw [if_pos hlen, getNested_cons, getNested_cons]
          show getNested (objLookup (json.filter (fun p => decide (p.1 ≠ k))) r0) rr
            = getNested (objLookup json r0) rr
          by_cases h0 : r0 = k
          · subst h0
            rw [objLookup_filter_self, hg]
            have hq2 : ¬ (k2 :: rest) <+: rr := by
              intro hpre
              exact hp (List.cons_prefix_cons.mpr ⟨rfl, hpre⟩)
            have hr2 : ¬ rr <+: (k2 :: rest) := by
              intro hpre
              exact hr (List.cons_prefix_cons.mpr ⟨rfl, hpre⟩)
            rw [removeNested_to_nil (k2 :: rest) child rr
              (List.length_eq_zero.mp hlen) hq2 hr2]
            exact getNested_none _
          · rw [objLookup_filter_ne json k r0 h0]
        · rw [if_neg hlen, getNested_cons, getNested_cons]
          show getNested (objLookup (objSet json k
            (.obj (removeNestedKey child (k2 :: rest)))) r0) rr
            = getNested (objLookup json r0) rr
          by_cases h0 : r0 = k
          · subst h0
            rw [objLookup_objSet, if_pos rfl, hg]
            have hq2 : ¬ (k2 :: rest) <+: rr := by
              intro hpre
              exact hp (List.cons_prefix_cons.mpr ⟨rfl, hpre⟩)
            have hr2 : ¬ rr <+: (k2 :: rest) := by
              intro hpre
              exact hr (List.cons_prefix_cons.mpr ⟨rfl, hpre⟩)
            exact removeNested_preserve (k2 :: rest) child rr hr2 hq2
          · rw [objLookup_objSet, if_neg (fun he => h0 he.symm)]
      | arr l => rfl
      | str s => rfl
      | num m => rfl
      | bool bb => rfl

theorem getSeg_obj (l : List (String × TValue)) (k : String) :
    getSeg (.obj l) k = objLookup l k := rfl

theorem removeNested_no_empty_parent : ∀ (p : List String)
    (json : List (String × TValue)), noArrTEntries json = true →
    ∀ (q : List String), q ≠ [] → q <+: p → q ≠ p → ∀ l',
    getNested (some (.obj (removeNestedKey json p))) q = some (.obj l') →
    l' ≠ []
  | [], _, _, q, hqne, hpre, _, _, _ => by
    rw [List.prefix_nil] at hpre
    exact absurd hpre hqne
  | [k], _, _, q, hqne, hpre, hqp, _, _ => by
    obtain ⟨t, ht⟩ := hpre
    cases q with
    | nil => exact absurd rfl hqne
    | cons q0 qq =>
      rw [List.cons_append] at ht
      injection ht with h1 h2
      rw [List.append_eq_nil] at h2
      subst h1
      obtain ⟨hqq, _⟩ := h2
      subst hqq
      exact absurd rfl hqp
  | k :: k2 :: rest, json, hna, q, hqne, hpre, hqp, l', hres => by
    cases q with
    | nil => exact absurd rfl hqne
    | cons q0 qq =>
      obtain ⟨hq0, hqq⟩ := List.cons_prefix_cons.mp hpre
      subst hq0
      rw [removeNestedKey_cons2] at hres
      cases hg : objLookup json q0 with
      | none =>
        rw [hg] at hres
        have hres2 : getNested (some (TValue.obj json)) (q0 :: qq)
            = some (.obj l') := hres
        rw [getNested_cons, getSeg_obj, hg, getNested_none] at hres2
        exact absurd hres2 (by simp)
      | some c =>
        rw [hg] at hres
        cases c with
        | obj child =>
          have hchild : noArrTEntries child = true := by
            have h1 := noArrT_objLookup json q0 (.obj child) hna hg
            rw [noArrT] at h1
            exact h1
          have hres2 : getNested (some (TValue.obj
              (if (removeNestedKey child (k2 :: rest)).length = 0
               then json.filter (fun p => decide (p.1 ≠ q0))
               else objSet json q0 (.obj (removeNestedKey child (k2 :: rest))))))
              (q0 :: qq) = some (.obj l') := hres
          by_cases hlen : (removeNestedKey child (k2 :: rest)).length = 0
          · rw [if_pos hlen, getNested_cons, getSeg_obj,
              objLookup_filter_self, getNested_none] at hres2
            exact absurd hres2 (by simp)
          · rw [if_neg hlen, getNested_cons, getSeg_obj,
              objLookup_objSet, if_pos rfl] at hres2
            cases qq with
            | nil =>
              rw [getNested_nil] at hres2
              injection hres2 with h1
              injection h1 with h2
              intro hl
              subst h2
              exact hlen (by rw [hl]; rfl)
            | cons q1 qq2 =>
              have hqqne : qq2.length + 1 ≠ 0 := by omega
              refine removeNested_no_empty_parent (k2 :: rest) child hchild
                (q1 :: qq2) (by simp) hqq ?_ l' hres2
              intro he
              exact hqp (by rw [he])
        | arr l2 =>
          have h1 := noArrT_objLookup json q0 (.arr l2) hna hg
          rw [noArrT] at h1
          exact absurd h1 (by simp)
        | str s =>
          have hres2 : getNested (some (TValue.obj json)) (q0 :: qq)
              = some (.obj l') := hres
          rw [getNested_cons, getSeg_obj, hg] at hres2
          cases qq with
          | nil =>
            rw [getNested_nil] at hres2
            injection hres2 with h1
            exact absurd h1 (by intro h; exact TValue.noConfusion h)
          | cons q1 qq2 =>
            rw [getNested_cons, show getSeg (TValue.str s) q1 = none from rfl,
              getNested_none] at hres2
            exact absurd hres2 (by simp)
        | num m =>
          have hres2 : getNested (some (TValue.obj json)) (q0 :: qq)
              = some (.obj l') := hres
          rw [getNested_cons, getSeg_obj, hg] at hres2
          cases qq with
          | nil =>
            rw [getNested_nil] at hres2
            injection hres2 with h1
            exact absurd h1 (by intro h; exact TValue.noConfusion h)
          | cons q1 qq2 =>
            rw [getNested_cons, show getSeg (TValue.num m) q1 = none from rfl,
              getNested_none] at hres2
            exact absurd hres2 (by simp)
        | bool bb =>
          have hres2 : getNested (some (TValue.obj json)) (q0 :: qq)
              = some (.obj l') := hres
          rw [getNested_cons, getSeg_obj, hg] at hres2
          cases qq with
          | nil =>
            rw [getNested_nil] at hres2
            injection hres2 with h1
            exact absurd h1 (by intro h; exact TValue.noConfusion h)
          | cons q1 qq2 =>
            rw [getNested_cons, show getSeg (TValue.bool bb) q1 = none from rfl,
              getNested_none] at hres2
            exact absurd hres2 (by simp)

/-- C6: one stale key (`fk`, the only flattened key missing from the code's
valid set) on an array-free document.  `clean` replaces the document by
`removeNestedKey` at the key's dotted path: the leaf no longer resolves,
every prefix-incompatible path keeps its exact value, and no empty mapping
remains along the removed path (emptied parents are pruned recursively).  If
the document became empty it is deleted when `removeEmptyFiles` is configured
(the repository default), and the regenerated index — which lists the files
remaining on disk — then drops the namespace; with `removeEmptyFiles = false`
the file is saved as an empty mapping and the index still lists the
namespace.  A non-empty result is saved and stays listed. -/
theorem c6_clean_stale_key (removeEmptyFiles : Bool) (valid : List String)
    (ns : String) (json : List (String × TValue)) (fk : String)
    (hna : noArrTEntries json = true)
    (hstale : (getFlattenedKeys ns valid "" json).filter
        (fun k => !valid.contains k) = [fk]) :
    (cleanNamespace removeEmptyFiles valid ns json).1
      = removeNestedKey json (splitDot (afterColon fk)) ∧
    getNested (some (.obj (removeNestedKey json (splitDot (afterColon fk)))))
      (splitDot (afterColon fk)) = none ∧
    (∀ r : List String, ¬ r <+: splitDot (afterColon fk) →
      ¬ splitDot (afterColon fk) <+: r →
      getNested (some (.obj (removeNestedKey json (splitDot (afterColon fk))))) r
        = getNested (some (.obj json)) r) ∧
    (∀ q : List String, q ≠ [] → q <+: splitDot (afterColon fk) →
      q ≠ splitDot (afterColon fk) → ∀ l',
      getNested (some (.obj (removeNestedKey json (splitDot (afterColon fk))))) q
        = some (.obj l') → l' ≠ []) ∧
    ((removeNestedKey json (splitDot (afterColon fk))).length = 0 →
      (cleanNamespace removeEmptyFiles valid ns json).2
          = (if removeEmptyFiles then FileFate.deleted else FileFate.savedEmpty) ∧
      indexListsNamespace (cleanNamespace removeEmptyFiles valid ns json).2
          = !removeEmptyFiles) ∧
    ((removeNestedKey json (splitDot (afterColon fk))).length ≠ 0 →
      (cleanNamespace removeEmptyFiles valid ns json).2 = FileFate.saved ∧
      indexListsNamespace (cleanNamespace removeEmptyFiles valid ns json).2
        = true) := by
  have hclean : cleanNamespace removeEmptyFiles valid ns json =
      (if (removeNestedKey json (splitDot (afterColon fk))).length = 0 then
        if removeEmptyFiles
        then (removeNestedKey json (splitDot (afterColon fk)), FileFate.deleted)
        else (removeNestedKey json (splitDot (afterColon fk)),
          FileFate.savedEmpty)
       else (removeNestedKey json (splitDot (afterColon fk)),
         FileFate.saved)) := by
    simp only [cleanNamespace]
    rw [hstale, if_neg (by simp)]
    rfl
  have h1 : (cleanNamespace removeEmptyFiles valid ns json).1
      = removeNestedKey json (splitDot (afterColon fk)) := by
    rw [hclean]
    by_cases hlen : (removeNestedKey json (splitDot (afterColon fk))).length = 0
    · rw [if_pos hlen]
      by_cases hrm : removeEmptyFiles = true
      · rw [if_pos hrm]
      · rw [if_neg hrm]
    · rw [if_neg hlen]
  refine ⟨h1,
    removeNested_resolve_none _ json (splitDot_ne_nil _) hna,
    fun r hr hp => removeNested_preserve _ json r hr hp,
    fun q hq1 hq2 hq3 => removeNested_no_empty_parent _ json hna q hq1 hq2 hq3,
    ?_, ?_⟩
  · intro hlen
    rw [hclean, if_pos hlen]
    by_cases hrm : removeEmptyFiles = true
    · subst hrm
      exact ⟨rfl, rfl⟩
    · have hrm2 : removeEmptyFiles = false := Bool.not_eq_true _ |>.mp hrm
      subst hrm2
      exact ⟨rfl, rfl⟩
  · intro hlen
    rw [hclean, if_neg hlen]
    exact ⟨rfl, rfl⟩

/-- C6 counterexample: with `removeEmptyFiles = false`, a document whose only
key became stale is emptied and saved as an empty mapping — the file then
still exists on disk, so the regenerated namespace index still lists the
namespace (it drops out only in the deletion mode), contrary to the claim
that the index no longer lists it in either mode. -/
theorem c6_counterexample :
    cleanNamespace false [] "n" [("a", .str "X")] = ([], .savedEmpty) ∧
    indexListsNamespace .savedEmpty = true ∧
    indexListsNamespace .deleted = false :=
  ⟨rfl, rfl, rfl⟩

/-- Concrete instantiation of the cleaner theorem: removing the call site of
`n:x.y` while `n:keep` stays in code, with files deleted when empty. -/
theorem c6_witness :
    (noArrTEntries c6wJson = true ∧
      (getFlattenedKeys "n" ["n:keep"] "" c6wJson).filter
        (fun k => !(["n:keep"] : List String).contains k) = ["n:x.y"]) ∧
    ((cleanNamespace true ["n:keep"] "n" c6wJson).1
        = removeNestedKey c6wJson (splitDot (afterColon "n:x.y")) ∧
      getNested (some (.obj (removeNestedKey c6wJson
          (splitDot (afterColon "n:x.y")))))
        (splitDot (afterColon "n:x.y")) = none ∧
      (∀ r : List String, ¬ r <+: splitDot (afterColon "n:x.y") →
        ¬ splitDot (afterColon "n:x.y") <+: r →
        getNested (some (.obj (removeNestedKey c6wJson
            (splitDot (afterColon "n:x.y"))))) r
          = getNested (some (.obj c6wJson)) r) ∧
      (∀ q : List String, q ≠ [] → q <+: splitDot (afterColon "n:x.y") →
        q ≠ splitDot (afterColon "n:x.y") → ∀ l',
        getNested (some (.obj (removeNestedKey c6wJson
            (splitDot (afterColon "n:x.y"))))) q
          = some (.obj l') → l' ≠ []) ∧
      ((removeNestedKey c6wJson (splitDot (afterColon "n:x.y"))).length = 0 →
        (cleanNamespace true ["n:keep"] "n" c6wJson).2
            = (if true then FileFate.deleted else FileFate.savedEmpty) ∧
        indexListsNamespace (cleanNamespace true ["n:keep"] "n" c6wJson).2
            = !true) ∧
      ((removeNestedKey c6wJson (splitDot (afterColon "n:x.y"))).length ≠ 0 →
        (cleanNamespace true ["n:keep"] "n" c6wJson).2 = FileFate.saved ∧
        indexListsNamespace (cleanNamespace true ["n:keep"] "n" c6wJson).2
          = true)) :=
  ⟨⟨by decide, by decide⟩,
    c6_clean_stale_key true ["n:keep"] "n" c6wJson "n:x.y"
      (by decide) (by decide)⟩

end I18n
